import Mathlib

/-!
Shallow embedding of `src/utils/chat_formatting.py` (the pagination,
mention-escaping and bordered-layout core) over `List Char`, together with
theorems checking the module's natural-language specification.

Python strings are modelled as `List Char`; `str` library primitives used by
the source (`count`, `rfind`, `replace`, `strip`, slicing) are given direct
executable definitions matching their documented CPython semantics on the
argument shapes the source uses (non-negative bounds, `start = 1` for
`rfind`).  Python's generator in `pagify` is modelled as a fuel-indexed loop
returning `none` when the fuel is exhausted, so that non-termination of the
source loop is expressible.
-/

namespace ChatFormatting

/-- Python `s.strip()`: remove leading and trailing whitespace.  The source
only ever tests `len(s.strip()) > 0`; whitespace is modelled by
`Char.isWhitespace` (the ASCII core of Python's Unicode whitespace set). -/
def pyStrip (s : List Char) : List Char :=
  ((s.dropWhile Char.isWhitespace).reverse.dropWhile Char.isWhitespace).reverse

/-- Left-to-right non-overlapping scan for `countOcc`, driven by a fuel that
dominates the scanned length (fuel-indexed so that the kernel can evaluate
it; `countOccAux_fuel` shows the fuel is irrelevant once sufficient). -/
def countOccAux (pat : List Char) : Nat → List Char → Nat
  | 0, _ => 0
  | _ + 1, [] => 0
  | f + 1, c :: rest =>
    if (c :: rest).take pat.length = pat then
      1 + countOccAux pat f (rest.drop (pat.length - 1))
    else
      countOccAux pat f rest

/-- Python `s.count(pat)`: number of non-overlapping occurrences of `pat`,
scanning left to right.  (For `pat = ""` CPython returns `len(s) + 1`; the
source only counts the nonempty literals `"@here"` and `"@everyone"`.) -/
def countOcc (pat : List Char) (s : List Char) : Nat :=
  if pat = [] then s.length + 1 else countOccAux pat s.length s

/-- Python `s.count(pat, 0, e)` with `e ≥ 0`: count within the slice `s[:e]`. -/
def pyCount (s pat : List Char) (e : Nat) : Nat :=
  countOcc pat (s.take e)

/-- Left-to-right non-overlapping scan for `replaceAll`, fuel-indexed like
`countOccAux`. -/
def replaceAllAux (pat rep : List Char) : Nat → List Char → List Char
  | 0, s => s
  | _ + 1, [] => []
  | f + 1, c :: rest =>
    if (c :: rest).take pat.length = pat then
      rep ++ replaceAllAux pat rep f (rest.drop (pat.length - 1))
    else
      c :: replaceAllAux pat rep f rest

/-- Python `s.replace(pat, rep)`: replace non-overlapping occurrences left to
right.  (For `pat = ""` CPython interleaves `rep` everywhere; the source only
replaces the nonempty literals `"@everyone"` and `"@here"`, so that case is
modelled as the identity.) -/
def replaceAll (pat rep : List Char) (s : List Char) : List Char :=
  if pat = [] then s else replaceAllAux pat rep s.length s

/-- The candidate indices inspected by `s.rfind(pat, start, e)`: positions `i`
with `start ≤ i`, the match fitting inside both the slice bound `e` and the
string, and `pat` occurring at `i`.  (`List.range (e+1)` lists candidates in
increasing order, so the last element of the filtered list is the greatest.) -/
def occList (s pat : List Char) (start e : Nat) : List Nat :=
  (List.range (e + 1)).filter fun i =>
    decide (start ≤ i) && decide (i + pat.length ≤ min e s.length) &&
      decide ((s.drop i).take pat.length = pat)

/-- Python `s.rfind(pat, start, e)` for non-negative bounds: the greatest
in-range occurrence index, or `-1` when there is none. -/
def pyRfind (s pat : List Char) (start e : Nat) : Int :=
  match (occList s pat start e).getLast? with
  | some k => (k : Int)
  | none => -1

/-- Model of `escape` from the source.  The `formatting=True` branch delegates to the
external `discord.utils.escape_markdown` collaborator and is outside the
modelled core; only the `mass_mentions` flag is modelled. -/
def escape (text : List Char) (mass_mentions : Bool) : List Char :=
  if mass_mentions then
    replaceAll "@here".data "@\u200bhere".data
      (replaceAll "@everyone".data "@\u200beveryone".data text)
  else text

/-- Specification-side escaping, following the spec's words for the
mass-mention mode: a single left-to-right pass that replaces *every*
occurrence of `@everyone` and of `@here` with the variant carrying a
zero-width separator between the `@` and the word, and copies everything
else unchanged.  `escape_eq_escapeSpec` below proves that the source's two
sequential `str.replace` passes compute exactly this function (the two
patterns cannot overlap each other, and the first replacement cannot create
or destroy occurrences of the second pattern). -/
def escapeSpecAux : Nat → List Char → List Char
  | 0, s => s
  | _ + 1, [] => []
  | f + 1, c :: rest =>
    if (c :: rest).take ("@everyone".data).length = "@everyone".data then
      "@\u200beveryone".data ++
        escapeSpecAux f (rest.drop (("@everyone".data).length - 1))
    else if (c :: rest).take ("@here".data).length = "@here".data then
      "@\u200bhere".data ++
        escapeSpecAux f (rest.drop (("@here".data).length - 1))
    else c :: escapeSpecAux f rest

def escapeSpec (s : List Char) : List Char := escapeSpecAux s.length s

/-! ## `pagify`

The generator is modelled as a fuel-indexed loop producing the list of all
yielded pages; `none` means the fuel ran out before the loop finished (which,
for the actual source, corresponds to the `while` loop never terminating).
`page_length` here is the value of the Python local *after* the initial
`page_length -= shorten_by`; the `pagify` wrapper below performs that
subtraction. -/

/-- The working limit `this_page_len` of one loop iteration: the remaining
budget, shrunk by the number of mass mentions found in the first
`page_length` characters when escaping is enabled. -/
def thisPageLen (in_text : List Char) (escape_mass_mentions : Bool)
    (page_length : Nat) : Nat :=
  if escape_mass_mentions then
    page_length -
      (pyCount in_text "@here".data page_length +
        pyCount in_text "@everyone".data page_length)
  else page_length

/-- The `closest_delim` value before the `-1` fallback: `rfind` each delimiter
in `in_text[1:this_page_len]`; with `priority` take the first hit in `delims`
order, otherwise the maximum across all delimiters.

Python's `max` raises `ValueError` on an empty sequence; the `[]` case below
is therefore a model artefact, and theorems about the non-priority mode are
only claimed for nonempty `delims`. -/
def closestDelimI (in_text : List Char) (delims : List (List Char))
    (priority : Bool) (this_page_len : Nat) : Int :=
  let cds := delims.map fun d => pyRfind in_text d 1 this_page_len
  if priority then
    (cds.find? fun x => decide (0 < x)).getD (-1)
  else
    match cds with
    | [] => -1
    | x :: xs => xs.foldl max x

/-- The final break point of one loop iteration: the chosen delimiter
position, or the working limit itself when no delimiter was found. -/
def breakPoint (in_text : List Char) (delims : List (List Char))
    (priority : Bool) (this_page_len : Nat) : Nat :=
  let i := closestDelimI in_text delims priority this_page_len
  if i = -1 then this_page_len else i.toNat

/-- The `to_send` slice of one loop iteration: `in_text[:bp]`, mass-mention
escaped when requested. -/
def toSend (in_text : List Char) (escape_mass_mentions : Bool) (bp : Nat) :
    List Char :=
  if escape_mass_mentions then escape (in_text.take bp) true
  else in_text.take bp

/-- The `while` loop of `pagify`, with fuel.  Each iteration yields the slice
(when it is not whitespace-only) and advances the cursor past the break
point; after the loop the remainder is yielded under the same rule. -/
def pagifyLoop (fuel : Nat) (delims : List (List Char))
    (priority escape_mass_mentions : Bool) (page_length : Nat)
    (in_text : List Char) : Option (List (List Char)) :=
  match fuel with
  | 0 => none
  | fuel' + 1 =>
    if page_length < in_text.length then
      let bp := breakPoint in_text delims priority
        (thisPageLen in_text escape_mass_mentions page_length)
      match pagifyLoop fuel' delims priority escape_mass_mentions page_length
          (in_text.drop bp) with
      | none => none
      | some pages =>
        some (if 0 < (pyStrip (toSend in_text escape_mass_mentions bp)).length
              then toSend in_text escape_mass_mentions bp :: pages
              else pages)
    else
      some (if 0 < (pyStrip in_text).length then
              [if escape_mass_mentions then escape in_text true else in_text]
            else [])

/-- Wrapper `pagify` with all pages materialised: fuel `text.length + 1` suffices
whenever the source loop terminates, since every iteration must then consume
at least one character. -/
def pagify (text : List Char) (delims : List (List Char))
    (priority escape_mass_mentions : Bool) (shorten_by page_length : Nat) :
    Option (List (List Char)) :=
  pagifyLoop (text.length + 1) delims priority escape_mass_mentions
    (page_length - shorten_by) text

/-! ## `bordered`

The source builds each output row as a list of per-column placeholder strings
(`"{TL}…{TR}"`, `"{BL}…{BR}"`, a padded content cell, or blank filler),
joins them with a 4-space separator and newlines, and only then applies
`.format(**borders)` to the entire joined string.  The model mirrors this in
two stages: `matrixOf` produces the placeholder matrix (as `CellPiece`
values, which keep top and bottom borders distinguishable even when both
substitute to the same characters, as with the ASCII glyph set), and
`pyFormatB` performs the final `str.format` pass over the joined placeholder
text — so brace characters occurring inside column content are processed by
that pass exactly as in the source (`{{`/`}}` collapse to a single brace,
`{TL}` and the five other keys substitute, anything else brace-related
raises).  Python's `max` over an empty column and the format errors are
modelled by the `none` result. -/

structure Glyphs where
  TL : Char
  TR : Char
  BL : Char
  BR : Char
  HZ : Char
  VT : Char

/-- The glyph set selected with `ascii_border=True`. -/
def asciiGlyphs : Glyphs := ⟨'+', '+', '+', '+', '-', '|'⟩

/-- The default Unicode box-drawing glyph set. -/
def boxGlyphs : Glyphs := ⟨'┌', '┐', '└', '┘', '─', '│'⟩

/-- One column's contribution to one output row, before glyph substitution. -/
inductive CellPiece where
  | top (width : Nat)
  | cell (width : Nat) (line : List Char)
  | bottom (width : Nat)
  | fill (width : Nat)
deriving DecidableEq

/-- The placeholder text the source builds for a single piece, before the
final `.format(**borders)`: borders are `"{TL}" + "{HZ}"*width + "{TR}"`
(resp. `{BL}`/`{BR}`), cells are the raw line padded with trailing spaces to
`width` (lengths are measured before formatting, as in the source) between
two `"{VT}"` markers, filler is `width + 2` spaces. -/
def placeholder : CellPiece → List Char
  | .top w => "{TL}".data ++ (List.replicate w "{HZ}".data).flatten
      ++ "{TR}".data
  | .cell w line =>
    "{VT}".data ++ (line ++ List.replicate (w - line.length) ' ')
      ++ "{VT}".data
  | .bottom w => "{BL}".data ++ (List.replicate w "{HZ}".data).flatten
      ++ "{BR}".data
  | .fill w => List.replicate (w + 2) ' '

/-- The image of a piece under the final formatting pass when its content
contains no brace characters: borders become a corner, `width` horizontal
glyphs and a corner; cells the padded line between two vertical glyphs;
filler stays `width + 2` spaces.  `pyFormatB_placeholder` proves that
formatting `placeholder p` yields exactly this for brace-free content. -/
def render (g : Glyphs) : CellPiece → List Char
  | .top w => g.TL :: (List.replicate w g.HZ ++ [g.TR])
  | .cell w line =>
    g.VT :: ((line ++ List.replicate (w - line.length) ' ') ++ [g.VT])
  | .bottom w => g.BL :: (List.replicate w g.HZ ++ [g.BR])
  | .fill w => List.replicate (w + 2) ' '

/-- Python `max` over a list of numbers: `none` on the empty list, where
CPython raises `ValueError`. -/
def pyMax : List Nat → Option Nat
  | [] => none
  | x :: xs => some (xs.foldl max x)

/-- The tuple of column widths: longest line of each column plus 9.  `none`
when some column is empty (Python raises `ValueError` building the tuple). -/
def widthsOf : List (List (List Char)) → Option (List Nat)
  | [] => some []
  | c :: cs =>
    match pyMax (c.map List.length), widthsOf cs with
    | some m, some ws => some ((m + 9) :: ws)
    | _, _ => none

/-- One `zip_longest` row: for each column (paired with its width and its
`colsdone` flag, left to right) emit the content cell at row `r`, or the
bottom border the first time the column is exhausted, or blank filler
afterwards; also returns the updated `colsdone` flags. -/
def rowPieces (r : Nat) :
    List (List (List Char)) → List Nat → List Bool →
      List CellPiece × List Bool
  | col :: cs, w :: ws, dn :: ds =>
    let rec_ := rowPieces r cs ws ds
    match col[r]? with
    | some line => (.cell w line :: rec_.1, dn :: rec_.2)
    | none =>
      if dn then (.fill w :: rec_.1, dn :: rec_.2)
      else (.bottom w :: rec_.1, true :: rec_.2)
  | _, _, _ => ([], [])

/-- The trailing row after the `zip_longest` loop: a bottom border for every
column not yet closed, blank filler for the rest. -/
def finalPieces : List Nat → List Bool → List CellPiece
  | w :: ws, dn :: ds =>
    (if dn then CellPiece.fill w else CellPiece.bottom w) :: finalPieces ws ds
  | _, _ => []

/-- The `zip_longest` loop of `bordered`: starting from no accumulated rows
and all `colsdone` flags `False`, emit one row per index up to the tallest
column height, threading the updated flags. -/
def bodyFold (cols : List (List (List Char))) (ws : List Nat) (maxH : Nat) :
    List (List CellPiece) × List Bool :=
  (List.range maxH).foldl
    (fun acc r =>
      (acc.1 ++ [(rowPieces r cols ws acc.2).1], (rowPieces r cols ws acc.2).2))
    (([] : List (List CellPiece)), List.replicate cols.length false)

/-- The full placeholder matrix of `bordered`: the top-border row, one row
per `zip_longest` step (tracking the mutable `colsdone` flags), and the
trailing row. -/
def matrixOf (cols : List (List (List Char))) :
    Option (List (List CellPiece)) :=
  match widthsOf cols with
  | none => none
  | some ws =>
    some ((ws.map CellPiece.top)
      :: (bodyFold cols ws ((cols.map List.length).foldl max 0)).1
      ++ [finalPieces ws
            (bodyFold cols ws ((cols.map List.length).foldl max 0)).2])

/-- Python `sep.join(pieces)`. -/
def sepJoin (sep : List Char) : List (List Char) → List Char
  | [] => []
  | [x] => x
  | x :: y :: rest => x ++ sep ++ sepJoin sep (y :: rest)

/-- Scan up to the next `\x7d` (closing brace): returns the field name before
it and the remainder after it, or `none` when no closing brace exists (the
`ValueError` CPython raises for a lone `\x7b`). -/
def spanToBrace : List Char → Option (List Char × List Char)
  | [] => none
  | c :: rest =>
    if c = '}' then some ([], rest)
    else (spanToBrace rest).map fun q => (c :: q.1, q.2)

/-- Lookup of a `str.format` replacement field against the six `borders`
keys.  Any other field is modelled as an error, matching the `KeyError`
CPython raises for unknown names in the source's `.format(**borders)` call
(conversions or format specifications such as `TL:>3`, which the source's
own placeholders never carry and no inspected input contains, are subsumed
into this error case). -/
def borderKey (g : Glyphs) : List Char → Option Char
  | ['T', 'L'] => some g.TL
  | ['T', 'R'] => some g.TR
  | ['B', 'L'] => some g.BL
  | ['B', 'R'] => some g.BR
  | ['H', 'Z'] => some g.HZ
  | ['V', 'T'] => some g.VT
  | _ => none

/-- One fuel-indexed pass of Python's `str.format` with the `borders`
keyword mapping: `\x7b\x7b` and `\x7d\x7d` collapse to a literal brace, a
brace-delimited field substitutes its glyph, a stray brace is an error
(`none`), and every other character is copied.  The fuel dominates the
scanned length (`pyFormatBAux_fuel`). -/
def pyFormatBAux (g : Glyphs) : Nat → List Char → Option (List Char)
  | 0, _ => none
  | _ + 1, [] => some []
  | f + 1, c :: rest =>
    if c = '{' then
      match rest with
      | [] => none
      | c2 :: rest2 =>
        if c2 = '{' then (pyFormatBAux g f rest2).map fun t => '{' :: t
        else
          match spanToBrace rest with
          | none => none
          | some (name, rest') =>
            match borderKey g name with
            | none => none
            | some ch => (pyFormatBAux g f rest').map fun t => ch :: t
    else if c = '}' then
      match rest with
      | c2 :: rest2 =>
        if c2 = '}' then (pyFormatBAux g f rest2).map fun t => '}' :: t
        else none
      | [] => none
    else (pyFormatBAux g f rest).map fun t => c :: t

/-- Python `s.format(**borders)`: `none` models the `ValueError`/`KeyError`
CPython raises on stray braces or unknown fields. -/
def pyFormatB (g : Glyphs) (s : List Char) : Option (List Char) :=
  pyFormatBAux g (s.length + 1) s

/-- Model of `bordered` from the source: build every row from placeholder
pieces, join the columns of a row with four spaces and the rows with
newlines, then apply the single final `.format(**borders)` pass to the whole
string.  `none` models the `ValueError` Python raises when a column is empty
and the format errors on stray braces in content. -/
def bordered (cols : List (List (List Char))) (ascii_border : Bool) :
    Option (List Char) :=
  let g := if ascii_border then asciiGlyphs else boxGlyphs
  match matrixOf cols with
  | none => none
  | some rows =>
    pyFormatB g (sepJoin ['\n']
      (rows.map fun row =>
        sepJoin (List.replicate 4 ' ') (row.map placeholder)))

/-- Split a string back into its newline-separated lines (inverse of the
final join when no line contains a newline). -/
def splitNl : List Char → List (List Char)
  | [] => [[]]
  | c :: rest =>
    match splitNl rest with
    | [] => [[c]]
    | h :: t => if c = '\n' then [] :: h :: t else (c :: h) :: t

/-- Does this piece show column content (as opposed to a border or filler)? -/
def isCellPiece : CellPiece → Bool
  | .cell _ _ => true
  | _ => false

/-- The piece contributed by column `j` to row `i` of the placeholder
matrix. -/
def pieceAt (m : List (List CellPiece)) (i j : Nat) : Option CellPiece :=
  m[i]?.bind fun row => row[j]?

/-- The index of the last matrix row in which column `j` still shows
content. -/
def lastContentRow (m : List (List CellPiece)) (j : Nat) : Option Nat :=
  ((List.range m.length).filter fun i =>
    match pieceAt m i j with
    | some p => isCellPiece p
    | none => false).getLast?

/-! ## Basic lemmas about the string primitives -/

theorem countOccAux_fuel (pat : List Char) :
    ∀ f (s : List Char), s.length ≤ f →
      countOccAux pat f s = countOccAux pat s.length s := by
  intro f
  induction f using Nat.strong_induction_on with
  | _ f ih =>
    intro s hs
    match f, s with
    | 0, s =>
      cases s with
      | nil => rfl
      | cons c r => simp at hs
    | f' + 1, [] => rfl
    | f' + 1, c :: rest =>
      simp only [List.length_cons] at hs
      by_cases hm : (c :: rest).take pat.length = pat
      · have hd : (rest.drop (pat.length - 1)).length ≤ rest.length := by
          simp only [List.length_drop]
          omega
        simp only [List.length_cons, countOccAux, if_pos hm]
        rw [ih f' (by omega) _ (by omega),
          ih rest.length (by omega) _ hd]
      · simp only [List.length_cons, countOccAux, if_neg hm]
        rw [ih f' (by omega) _ (by omega),
          ih rest.length (by omega) _ (le_refl _)]

theorem countOcc_nil {pat : List Char} (h : pat ≠ []) : countOcc pat [] = 0 := by
  simp [countOcc, h, countOccAux]

theorem countOcc_cons_pos {pat : List Char} (h : pat ≠ []) {c : Char}
    {rest : List Char} (hm : (c :: rest).take pat.length = pat) :
    countOcc pat (c :: rest) = 1 + countOcc pat (rest.drop (pat.length - 1)) := by
  have hd : (rest.drop (pat.length - 1)).length ≤ rest.length := by
    simp only [List.length_drop]
    omega
  rw [countOcc, if_neg h, countOcc, if_neg h]
  simp only [List.length_cons, countOccAux, if_pos hm]
  rw [countOccAux_fuel pat rest.length _ hd]

theorem countOcc_cons_neg {pat : List Char} (h : pat ≠ []) {c : Char}
    {rest : List Char} (hm : ¬ (c :: rest).take pat.length = pat) :
    countOcc pat (c :: rest) = countOcc pat rest := by
  rw [countOcc, if_neg h, countOcc, if_neg h]
  simp only [List.length_cons, countOccAux, if_neg hm]

theorem replaceAllAux_fuel (pat rep : List Char) :
    ∀ f (s : List Char), s.length ≤ f →
      replaceAllAux pat rep f s = replaceAllAux pat rep s.length s := by
  intro f
  induction f using Nat.strong_induction_on with
  | _ f ih =>
    intro s hs
    match f, s with
    | 0, s =>
      cases s with
      | nil => rfl
      | cons c r => simp at hs
    | f' + 1, [] => rfl
    | f' + 1, c :: rest =>
      simp only [List.length_cons] at hs
      by_cases hm : (c :: rest).take pat.length = pat
      · have hd : (rest.drop (pat.length - 1)).length ≤ rest.length := by
          simp only [List.length_drop]
          omega
        simp only [List.length_cons, replaceAllAux, if_pos hm]
        rw [ih f' (by omega) _ (by omega),
          ih rest.length (by omega) _ hd]
      · simp only [List.length_cons, replaceAllAux, if_neg hm]
        rw [ih f' (by omega) _ (by omega),
          ih rest.length (by omega) _ (le_refl _)]

theorem replaceAll_nil {pat rep : List Char} : replaceAll pat rep [] = [] := by
  by_cases h : pat = [] <;> simp [replaceAll, h, replaceAllAux]

theorem replaceAll_cons_pos {pat : List Char} (h : pat ≠ []) {rep : List Char}
    {c : Char} {rest : List Char} (hm : (c :: rest).take pat.length = pat) :
    replaceAll pat rep (c :: rest) =
      rep ++ replaceAll pat rep (rest.drop (pat.length - 1)) := by
  have hd : (rest.drop (pat.length - 1)).length ≤ rest.length := by
    simp only [List.length_drop]
    omega
  rw [replaceAll, if_neg h, replaceAll, if_neg h]
  simp only [List.length_cons, replaceAllAux, if_pos hm]
  rw [replaceAllAux_fuel pat rep rest.length _ hd]

theorem replaceAll_cons_neg {pat : List Char} (h : pat ≠ []) {rep : List Char}
    {c : Char} {rest : List Char} (hm : ¬ (c :: rest).take pat.length = pat) :
    replaceAll pat rep (c :: rest) = c :: replaceAll pat rep rest := by
  rw [replaceAll, if_neg h, replaceAll, if_neg h]
  simp only [List.length_cons, replaceAllAux, if_neg hm]

/-- Each counted occurrence consumes `pat.length` characters of the scanned
string, so `pat.length * countOcc pat s ≤ s.length` for nonempty `pat`. -/
theorem length_mul_countOcc_le {pat : List Char} (h : pat ≠ []) :
    ∀ s : List Char, pat.length * countOcc pat s ≤ s.length := by
  have hp : 1 ≤ pat.length := by
    cases pat with
    | nil => exact absurd rfl h
    | cons a b => simp
  have key : ∀ n (s : List Char), s.length ≤ n →
      pat.length * countOcc pat s ≤ s.length := by
    intro n
    induction n with
    | zero =>
      intro s hs
      cases s with
      | nil => simp [countOcc_nil h]
      | cons c r => simp at hs
    | succ n ih =>
      intro s hs
      cases s with
      | nil => simp [countOcc_nil h]
      | cons c rest =>
        simp only [List.length_cons] at hs
        by_cases hm : (c :: rest).take pat.length = pat
        · have hfit : pat.length ≤ rest.length + 1 := by
            have := congrArg List.length hm
            simp only [List.length_take, List.length_cons] at this
            omega
          have hd : (rest.drop (pat.length - 1)).length ≤ n := by
            simp only [List.length_drop]
            omega
          have := ih _ hd
          rw [countOcc_cons_pos h hm]
          simp only [List.length_cons, List.length_drop] at this ⊢
          have expand : pat.length * (1 + countOcc pat (rest.drop (pat.length - 1)))
              = pat.length + pat.length * countOcc pat (rest.drop (pat.length - 1)) := by
            ring
          omega
        · have := ih rest (by omega)
          rw [countOcc_cons_neg h hm]
          simp only [List.length_cons]
          omega
  intro s
  exact key s.length s (le_refl _)

/-- When the loop body runs (`page_length < len(in_text)` and a positive
budget), the working limit is still positive: the subtracted mention counts
occupy five or nine characters each inside the inspected window. -/
theorem one_le_thisPageLen {T : List Char} {emm : Bool} {plen : Nat}
    (h1 : 1 ≤ plen) : 1 ≤ thisPageLen T emm plen := by
  cases emm with
  | false => simpa [thisPageLen] using h1
  | true =>
    have hhere := @length_mul_countOcc_le ("@here".data) (by decide)
      (T.take plen)
    have hev := @length_mul_countOcc_le ("@everyone".data) (by decide)
      (T.take plen)
    simp at hhere hev
    simp [thisPageLen, pyCount]
    omega

/-! ## Characterisation of `rfind` and the break-point selection -/

theorem getLast?_filter_range_some {P : Nat → Bool} {n k : Nat} :
    ((List.range n).filter P).getLast? = some k ↔
      (k < n ∧ P k = true ∧ ∀ j, k < j → j < n → P j = false) := by
  induction n with
  | zero =>
    simp only [List.range_zero, List.filter_nil, List.getLast?_nil]
    constructor
    · intro h
      exact absurd h (by simp)
    · intro ⟨hk, _, _⟩
      omega
  | succ n ih =>
    rw [List.range_succ, List.filter_append]
    by_cases hp : P n = true
    · have hfil : List.filter P [n] = [n] := by simp [hp]
      rw [hfil, List.getLast?_concat]
      constructor
      · intro h
        have hk : k = n := by
          have := Option.some.injEq n k ▸ h
          exact (Option.some_inj.mp h).symm
        subst hk
        exact ⟨by omega, hp, fun j h1 h2 => by omega⟩
      · intro ⟨hk, hpk, hmax⟩
        by_cases hkn : k = n
        · subst hkn
          rfl
        · have hklt : k < n := by omega
          have := hmax n hklt (by omega)
          rw [this] at hp
          exact absurd hp (by simp)
    · have hfil : List.filter P [n] = [] := by simp [hp]
      rw [hfil, List.append_nil, ih]
      have hpn : P n = false := by
        cases h : P n with
        | false => rfl
        | true => exact absurd h hp
      constructor
      · intro ⟨hk, hpk, hmax⟩
        refine ⟨by omega, hpk, fun j h1 h2 => ?_⟩
        by_cases hj : j = n
        · subst hj
          exact hpn
        · exact hmax j h1 (by omega)
      · intro ⟨hk, hpk, hmax⟩
        have hkn : k ≠ n := fun h => by
          rw [h, hpn] at hpk
          exact absurd hpk (by simp)
        exact ⟨by omega, hpk, fun j h1 h2 => hmax j h1 (by omega)⟩

theorem getLast?_filter_range_none {P : Nat → Bool} {n : Nat} :
    ((List.range n).filter P).getLast? = none ↔ ∀ j, j < n → P j = false := by
  rw [List.getLast?_eq_none_iff, List.filter_eq_nil_iff]
  constructor
  · intro h j hj
    have := h j (List.mem_range.mpr hj)
    cases hpj : P j with
    | false => rfl
    | true => exact absurd hpj this
  · intro h a ha
    rw [h a (List.mem_range.mp ha)]
    simp

theorem mem_occList {s pat : List Char} {start e i : Nat} :
    i ∈ occList s pat start e ↔
      start ≤ i ∧ i + pat.length ≤ min e s.length ∧
        (s.drop i).take pat.length = pat := by
  simp only [occList, List.mem_filter, List.mem_range, Bool.and_eq_true,
    decide_eq_true_eq]
  constructor
  · intro ⟨_, ⟨h1, h2⟩, h3⟩
    exact ⟨h1, h2, h3⟩
  · intro ⟨h1, h2, h3⟩
    exact ⟨by omega, ⟨h1, h2⟩, h3⟩

theorem pyRfind_neg_iff {s pat : List Char} {start e : Nat} :
    pyRfind s pat start e = -1 ↔ occList s pat start e = [] := by
  unfold pyRfind
  cases h : (occList s pat start e).getLast? with
  | none =>
    simp only []
    rw [List.getLast?_eq_none_iff] at h
    simp [h]
  | some k =>
    simp only []
    constructor
    · intro hk
      exact absurd hk (by omega)
    · intro heq
      rw [heq] at h
      exact absurd h (by simp)

theorem pyRfind_cases (s pat : List Char) (start e : Nat) :
    (pyRfind s pat start e = -1 ∧ occList s pat start e = []) ∨
    ∃ k : Nat, pyRfind s pat start e = (k : Int) ∧ k ∈ occList s pat start e ∧
      ∀ j ∈ occList s pat start e, j ≤ k := by
  cases h : (occList s pat start e).getLast? with
  | none =>
    left
    have hnil := List.getLast?_eq_none_iff.mp h
    exact ⟨pyRfind_neg_iff.mpr hnil, hnil⟩
  | some k =>
    right
    have hspec : k < e + 1 ∧ _ ∧ ∀ j, k < j → j < e + 1 → _ :=
      getLast?_filter_range_some.mp h
    refine ⟨k, ?_, ?_, ?_⟩
    · unfold pyRfind
      rw [h]
    · rw [occList, List.mem_filter]
      exact ⟨List.mem_range.mpr hspec.1, hspec.2.1⟩
    · intro j hj
      rw [occList, List.mem_filter, List.mem_range] at hj
      by_contra hlt
      have hjk : k < j := by omega
      have := hspec.2.2 j hjk hj.1
      rw [this] at hj
      exact absurd hj.2 (by simp)

theorem foldl_max_mem {α : Type} [LinearOrder α] (l : List α) (a : α) :
    l.foldl max a = a ∨ l.foldl max a ∈ l := by
  induction l generalizing a with
  | nil => left; rfl
  | cons x xs ih =>
    rw [List.foldl_cons]
    rcases ih (max a x) with h | h
    · rw [h]
      rcases max_choice a x with hm | hm
      · left
        exact hm
      · right
        rw [hm]
        exact List.mem_cons_self x xs
    · right
      exact List.mem_cons_of_mem x h

theorem foldl_max_le {α : Type} [LinearOrder α] (l : List α) (a : α) :
    a ≤ l.foldl max a ∧ ∀ x ∈ l, x ≤ l.foldl max a := by
  induction l generalizing a with
  | nil => simp
  | cons x xs ih =>
    have h := ih (max a x)
    rw [List.foldl_cons]
    refine ⟨le_trans (le_max_left a x) h.1, ?_⟩
    intro y hy
    rcases List.mem_cons.mp hy with hy | hy
    · subst hy
      exact le_trans (le_max_right a y) h.1
    · exact h.2 y hy

theorem foldl_max_eq {α : Type} [LinearOrder α] {l : List α} {a k : α}
    (hmem : k = a ∨ k ∈ l)
    (ha : a ≤ k) (hub : ∀ x ∈ l, x ≤ k) : l.foldl max a = k := by
  have h1 := foldl_max_le l a
  have h2 := foldl_max_mem l a
  apply le_antisymm
  · rcases h2 with h | h
    · rw [h]
      exact ha
    · exact hub _ h
  · rcases hmem with h | h
    · rw [h] at ha ⊢
      exact h1.1
    · exact h1.2 k h

theorem closestDelimI_cases (s : List Char) (delims : List (List Char))
    (prio : Bool) (tpl : Nat) :
    closestDelimI s delims prio tpl = -1 ∨
    ∃ d ∈ delims, ∃ k : Nat, closestDelimI s delims prio tpl = (k : Int) ∧
      k ∈ occList s d 1 tpl := by
  unfold closestDelimI
  cases prio with
  | true =>
    rw [if_pos rfl]
    cases hf : List.find? (fun x => decide (0 < x))
        (delims.map fun d => pyRfind s d 1 tpl) with
    | none =>
      left
      rfl
    | some x =>
      have hpx : 0 < x := by
        have := List.find?_some hf
        simpa using this
      have hmx := List.mem_of_find?_eq_some hf
      rw [List.mem_map] at hmx
      obtain ⟨d, hd, hx⟩ := hmx
      rcases pyRfind_cases s d 1 tpl with ⟨h1, _⟩ | ⟨k, hk, hkm, _⟩
      · rw [h1] at hx
        omega
      · right
        refine ⟨d, hd, k, ?_, hkm⟩
        simp only [Option.getD_some]
        rw [← hx, hk]
  | false =>
    rw [if_neg (by simp)]
    cases hds : delims.map fun d => pyRfind s d 1 tpl with
    | nil =>
      left
      rfl
    | cons x xs =>
      simp only []
      rcases foldl_max_mem xs x with h | h
      · have hx : x ∈ delims.map fun d => pyRfind s d 1 tpl := by
          rw [hds]
          exact List.mem_cons_self x xs
        rw [List.mem_map] at hx
        obtain ⟨d, hd, hxd⟩ := hx
        rcases pyRfind_cases s d 1 tpl with ⟨h1, _⟩ | ⟨k, hk, hkm, _⟩
        · left
          rw [h, ← hxd, h1]
        · right
          exact ⟨d, hd, k, by rw [h, ← hxd, hk], hkm⟩
      · have hx : xs.foldl max x ∈ delims.map fun d => pyRfind s d 1 tpl := by
          rw [hds]
          exact List.mem_cons_of_mem x h
        rw [List.mem_map] at hx
        obtain ⟨d, hd, hxd⟩ := hx
        rcases pyRfind_cases s d 1 tpl with ⟨h1, _⟩ | ⟨k, hk, hkm, _⟩
        · left
          rw [← hxd, h1]
        · right
          exact ⟨d, hd, k, by rw [← hxd, hk], hkm⟩

theorem one_le_breakPoint {s : List Char} {delims : List (List Char)}
    {prio : Bool} {tpl : Nat} (h : 1 ≤ tpl) :
    1 ≤ breakPoint s delims prio tpl := by
  unfold breakPoint
  rcases closestDelimI_cases s delims prio tpl with hneg | ⟨d, _, k, hk, hkm⟩
  · rw [hneg]
    simpa using h
  · rw [hk]
    have h1k : 1 ≤ k := (mem_occList.mp hkm).1
    rw [if_neg (by omega)]
    simpa using h1k

theorem breakPoint_le {s : List Char} {delims : List (List Char)}
    {prio : Bool} {tpl : Nat} :
    breakPoint s delims prio tpl ≤ tpl := by
  unfold breakPoint
  rcases closestDelimI_cases s delims prio tpl with hneg | ⟨d, _, k, hk, hkm⟩
  · rw [hneg]
    simp
  · rw [hk]
    have hle := (mem_occList.mp hkm).2.1
    by_cases hzero : (k : Int) = -1
    · omega
    · rw [if_neg hzero]
      simp only [Int.toNat_ofNat]
      omega

/-! ## Whitespace, `strip` and `escape` -/

theorem pyStrip_eq_nil_iff {s : List Char} :
    pyStrip s = [] ↔ s.all Char.isWhitespace = true := by
  unfold pyStrip
  rw [List.reverse_eq_nil_iff, List.dropWhile_eq_nil_iff, List.all_eq_true]
  constructor
  · intro h x hx
    have hsplit := List.takeWhile_append_dropWhile (p := Char.isWhitespace)
      (l := s)
    rw [← hsplit] at hx
    rcases List.mem_append.mp hx with h1 | h2
    · exact List.mem_takeWhile_imp h1
    · exact h x (List.mem_reverse.mpr h2)
  · intro h x hx
    have hx' : x ∈ s.dropWhile Char.isWhitespace := List.mem_reverse.mp hx
    have hsplit := List.takeWhile_append_dropWhile (p := Char.isWhitespace)
      (l := s)
    have : x ∈ s := by
      rw [← hsplit]
      exact List.mem_append.mpr (Or.inr hx')
    exact h x this

theorem pyStrip_pos_iff {s : List Char} :
    0 < (pyStrip s).length ↔ ¬ s.all Char.isWhitespace = true := by
  rw [List.length_pos, ne_eq, pyStrip_eq_nil_iff]

theorem replaceAll_of_all_ws {pat rep s : List Char} {z : Char}
    (hhead : pat.head? = some z) (hz : Char.isWhitespace z = false)
    (h : ∀ c ∈ s, Char.isWhitespace c = true) : replaceAll pat rep s = s := by
  have hp : pat ≠ [] := by
    intro he
    rw [he] at hhead
    simp at hhead
  induction s with
  | nil => exact replaceAll_nil
  | cons c rest ih =>
    have hm : ¬ (c :: rest).take pat.length = pat := by
      intro hm
      have hm' : pat.head? = some c := by
        cases hl : pat.length with
        | zero =>
          cases pat with
          | nil => exact absurd rfl hp
          | cons a b => simp at hl
        | succ m =>
          rw [hl, List.take_succ_cons] at hm
          rw [← hm]
          rfl
      rw [hhead] at hm'
      have hce : z = c := Option.some_inj.mp hm'
      have := h c (List.mem_cons_self c rest)
      rw [← hce, hz] at this
      exact absurd this (by simp)
    rw [replaceAll_cons_neg hp hm,
      ih fun d hd => h d (List.mem_cons_of_mem c hd)]

theorem replaceAll_keeps_nonWs (pat rep : List Char) {s : List Char}
    (hrep : ∃ c ∈ rep, Char.isWhitespace c = false)
    (hs : ∃ c ∈ s, Char.isWhitespace c = false) :
    ∃ c ∈ replaceAll pat rep s, Char.isWhitespace c = false := by
  by_cases hp : pat = []
  · unfold replaceAll
    rw [if_pos hp]
    exact hs
  · revert hs
    induction s with
    | nil =>
      intro hs
      simp at hs
    | cons c rest ih =>
      intro hs
      by_cases hm : (c :: rest).take pat.length = pat
      · rw [replaceAll_cons_pos hp hm]
        obtain ⟨c0, hc0, hws⟩ := hrep
        exact ⟨c0, List.mem_append.mpr (Or.inl hc0), hws⟩
      · rw [replaceAll_cons_neg hp hm]
        by_cases hwc : Char.isWhitespace c = false
        · exact ⟨c, List.mem_cons_self c _, hwc⟩
        · obtain ⟨c0, hc0, hws⟩ := hs
          rcases List.mem_cons.mp hc0 with he | hr
          · rw [he] at hws
            exact absurd hws hwc
          · obtain ⟨c1, hc1, h1⟩ := ih ⟨c0, hr, hws⟩
            exact ⟨c1, List.mem_cons_of_mem c hc1, h1⟩

theorem escape_all_ws_iff (s : List Char) :
    (escape s true).all Char.isWhitespace = s.all Char.isWhitespace := by
  cases hws : s.all Char.isWhitespace with
  | true =>
    have h := List.all_eq_true.mp hws
    have h1 : replaceAll "@everyone".data "@\u200beveryone".data s = s :=
      replaceAll_of_all_ws (z := '@') (by decide) (by decide) h
    have h2 : replaceAll "@here".data "@\u200bhere".data s = s :=
      replaceAll_of_all_ws (z := '@') (by decide) (by decide) h
    rw [escape, if_pos rfl, h1, h2, hws]
  | false =>
    have hs : ∃ c ∈ s, Char.isWhitespace c = false := by
      by_contra hno
      push_neg at hno
      have : s.all Char.isWhitespace = true := by
        rw [List.all_eq_true]
        intro x hx
        have := hno x hx
        cases hcx : Char.isWhitespace x with
        | true => rfl
        | false => exact absurd hcx this
      rw [this] at hws
      exact absurd hws (by simp)
    have h1 := replaceAll_keeps_nonWs "@everyone".data "@\u200beveryone".data
      ⟨'@', by decide, by decide⟩ hs
    have h2 := replaceAll_keeps_nonWs "@here".data "@\u200bhere".data
      ⟨'@', by decide, by decide⟩ h1
    rw [escape, if_pos rfl]
    obtain ⟨c, hc, hcw⟩ := h2
    cases hall : (replaceAll "@here".data "@\u200bhere".data
        (replaceAll "@everyone".data "@\u200beveryone".data s)).all
          Char.isWhitespace with
    | true =>
      have := List.all_eq_true.mp hall c hc
      rw [hcw] at this
      exact absurd this (by simp)
    | false => rfl

/-! ## Unfolding and segmentation of the `pagify` loop -/

theorem pagifyLoop_succ_loop {f : Nat} {delims : List (List Char)}
    {prio emm : Bool} {plen : Nat} {T : List Char} (h : plen < T.length) :
    pagifyLoop (f + 1) delims prio emm plen T =
      Option.map
        (fun pages =>
          if 0 < (pyStrip (toSend T emm (breakPoint T delims prio
              (thisPageLen T emm plen)))).length
          then toSend T emm (breakPoint T delims prio (thisPageLen T emm plen))
            :: pages
          else pages)
        (pagifyLoop f delims prio emm plen
          (T.drop (breakPoint T delims prio (thisPageLen T emm plen)))) := by
  simp only [pagifyLoop]
  rw [if_pos h]
  cases pagifyLoop f delims prio emm plen
      (T.drop (breakPoint T delims prio (thisPageLen T emm plen))) with
  | none => rfl
  | some pages => rfl

theorem pagifyLoop_succ_last {f : Nat} {delims : List (List Char)}
    {prio emm : Bool} {plen : Nat} {T : List Char} (h : ¬ plen < T.length) :
    pagifyLoop (f + 1) delims prio emm plen T =
      some (if 0 < (pyStrip T).length
            then [if emm then escape T true else T] else []) := by
  rw [pagifyLoop, if_neg h]

theorem toSend_strip_pos_iff {T : List Char} {emm : Bool} {bp : Nat} :
    0 < (pyStrip (toSend T emm bp)).length ↔
      ¬ (T.take bp).all Char.isWhitespace = true := by
  rw [pyStrip_pos_iff]
  cases emm with
  | true =>
    rw [toSend, if_pos rfl, escape_all_ws_iff]
  | false =>
    rw [toSend, if_neg (by simp)]

/-- Segmentation invariant of the `pagify` loop: with a positive budget the
loop cuts the input into contiguous segments whose concatenation is the whole
input, and yields exactly the non-whitespace-only segments (escaped when
requested), in document order. -/
theorem pagifyLoop_segs (delims : List (List Char)) (prio emm : Bool)
    (plen : Nat) (h1 : 1 ≤ plen) :
    ∀ (fuel : Nat) (T : List Char), T.length < fuel →
      ∃ segs : List (List Char), segs.flatten = T ∧
        pagifyLoop fuel delims prio emm plen T =
          some ((segs.filter fun sg => !sg.all Char.isWhitespace).map
            fun sg => if emm then escape sg true else sg) := by
  intro fuel
  induction fuel with
  | zero =>
    intro T hT
    omega
  | succ f ih =>
    intro T hT
    by_cases hcond : plen < T.length
    · have hbp1 : 1 ≤ breakPoint T delims prio (thisPageLen T emm plen) :=
        one_le_breakPoint (one_le_thisPageLen h1)
      have hdl : (T.drop (breakPoint T delims prio
          (thisPageLen T emm plen))).length < f := by
        rw [List.length_drop]
        omega
      obtain ⟨segs, hjoin, heq⟩ :=
        ih (T.drop (breakPoint T delims prio (thisPageLen T emm plen))) hdl
      refine ⟨T.take (breakPoint T delims prio (thisPageLen T emm plen))
        :: segs, ?_, ?_⟩
      · rw [List.flatten_cons, hjoin, List.take_append_drop]
      · rw [pagifyLoop_succ_loop hcond, heq, Option.map_some']
        by_cases hws : (T.take (breakPoint T delims prio
            (thisPageLen T emm plen))).all Char.isWhitespace = true
        · rw [if_neg (by rw [toSend_strip_pos_iff]; simpa using hws),
            List.filter_cons_of_neg (by simp [hws])]
        · rw [if_pos (by rw [toSend_strip_pos_iff]; exact hws),
            List.filter_cons_of_pos (by simp [hws]), List.map_cons]
          rw [toSend]
    · push_neg at hcond
      refine ⟨[T], by simp, ?_⟩
      rw [pagifyLoop_succ_last (by omega)]
      by_cases hws : T.all Char.isWhitespace = true
      · rw [if_neg (by rw [pyStrip_pos_iff]; simpa using hws),
          List.filter_cons_of_neg (by simp [hws])]
        simp
      · rw [if_pos (by rw [pyStrip_pos_iff]; exact hws),
          List.filter_cons_of_pos (by simp [hws])]
        simp

/-- With a zero budget (`shorten_by ≥ page_length`) and nonempty input the
loop never advances: the break point degenerates to `0`, the slice is empty
and the cursor stays put, so no amount of fuel completes the loop. -/
theorem pagifyLoop_zero_budget_stuck :
    ∀ fuel : Nat, pagifyLoop fuel [['\n']] false true 0 ['a'] = none := by
  intro fuel
  induction fuel with
  | zero => rfl
  | succ f ih =>
    have hbp : breakPoint ['a'] [['\n']] false (thisPageLen ['a'] true 0)
        = 0 := by decide
    rw [pagifyLoop_succ_loop (by decide), hbp, List.drop_zero, ih]
    rfl

/-! ## Helpers for the break-point selection claim -/

theorem find?_append_none {α : Type} {p : α → Bool} {l1 l2 : List α}
    (h : ∀ x ∈ l1, ¬ p x = true) :
    List.find? p (l1 ++ l2) = List.find? p l2 := by
  induction l1 with
  | nil => rfl
  | cons x xs ih =>
    rw [List.cons_append, List.find?_cons_of_neg _ (h x (List.mem_cons_self x xs))]
    exact ih fun y hy => h y (List.mem_cons_of_mem x hy)

theorem pyRfind_eq_of_max {s d : List Char} {tpl k : Nat}
    (hk : k ∈ occList s d 1 tpl) (hub : ∀ j ∈ occList s d 1 tpl, j ≤ k) :
    pyRfind s d 1 tpl = (k : Int) := by
  rcases pyRfind_cases s d 1 tpl with ⟨_, hnil⟩ | ⟨k0, h0, hk0, hmax0⟩
  · rw [hnil] at hk
    simp at hk
  · have hke : k0 = k := le_antisymm (hub k0 hk0) (hmax0 k hk)
    rw [h0, hke]

theorem pyRfind_le_of_ub {s d : List Char} {tpl k : Nat}
    (hub : ∀ j ∈ occList s d 1 tpl, j ≤ k) : pyRfind s d 1 tpl ≤ (k : Int) := by
  rcases pyRfind_cases s d 1 tpl with ⟨hneg, _⟩ | ⟨k0, h0, hk0, _⟩
  · rw [hneg]
    omega
  · rw [h0]
    exact_mod_cast hub k0 hk0

theorem one_le_of_mem_occList {s d : List Char} {tpl k : Nat}
    (hk : k ∈ occList s d 1 tpl) : 1 ≤ k :=
  (mem_occList.mp hk).1

/-- Claim C3.  Break-point selection in `pagify`: for each delimiter only its
last occurrence strictly between index 1 and the working limit is considered
(`occList` lists exactly the in-range occurrences); with `priority = true`
the chosen break point is the last in-range occurrence of the first delimiter
(in `delims` order) that has any in-range occurrence; with `priority = false`
it is the maximum in-range occurrence index across all delimiters; and if no
delimiter occurs in range the break point is the working limit itself. -/
theorem pagify_break_point_selection (s : List Char)
    (delims : List (List Char)) (tpl : Nat) :
    ((∀ d ∈ delims, occList s d 1 tpl = []) →
      ∀ prio : Bool, breakPoint s delims prio tpl = tpl) ∧
    (∀ (pre suf : List (List Char)) (d₀ : List Char),
      delims = pre ++ d₀ :: suf →
      (∀ d ∈ pre, occList s d 1 tpl = []) →
      occList s d₀ 1 tpl ≠ [] →
      ∀ k, k ∈ occList s d₀ 1 tpl →
        (∀ j ∈ occList s d₀ 1 tpl, j ≤ k) →
        breakPoint s delims true tpl = k) ∧
    (∀ k, (∃ d ∈ delims, k ∈ occList s d 1 tpl) →
      (∀ d ∈ delims, ∀ j ∈ occList s d 1 tpl, j ≤ k) →
      breakPoint s delims false tpl = k) := by
  refine ⟨?_, ?_, ?_⟩
  · intro hocc prio
    have hall : ∀ d ∈ delims, pyRfind s d 1 tpl = -1 := fun d hd =>
      pyRfind_neg_iff.mpr (hocc d hd)
    have hclosest : closestDelimI s delims prio tpl = -1 := by
      unfold closestDelimI
      cases prio with
      | true =>
        rw [if_pos rfl]
        have hfind : List.find? (fun x => decide (0 < x))
            (delims.map fun d => pyRfind s d 1 tpl) = none := by
          rw [List.find?_eq_none]
          intro x hx
          rw [List.mem_map] at hx
          obtain ⟨d, hd, hxd⟩ := hx
          rw [← hxd, hall d hd]
          simp
        rw [hfind]
        rfl
      | false =>
        rw [if_neg (by simp)]
        cases hmap : delims.map fun d => pyRfind s d 1 tpl with
        | nil => rfl
        | cons x xs =>
          have hx : x = -1 := by
            have : x ∈ delims.map fun d => pyRfind s d 1 tpl := by
              rw [hmap]
              exact List.mem_cons_self x xs
            rw [List.mem_map] at this
            obtain ⟨d, hd, hxd⟩ := this
            rw [← hxd, hall d hd]
          refine foldl_max_eq (Or.inl hx.symm) (le_of_eq hx) ?_
          intro y hy
          have : y ∈ delims.map fun d => pyRfind s d 1 tpl := by
            rw [hmap]
            exact List.mem_cons_of_mem x hy
          rw [List.mem_map] at this
          obtain ⟨d, hd, hyd⟩ := this
          rw [← hyd, hall d hd]
    rw [breakPoint, hclosest, if_pos rfl]
  · intro pre suf d₀ hsplit hpre hocc k hk hub
    have hrf : pyRfind s d₀ 1 tpl = (k : Int) := pyRfind_eq_of_max hk hub
    have h1k : 1 ≤ k := one_le_of_mem_occList hk
    have hclosest : closestDelimI s delims true tpl = (k : Int) := by
      unfold closestDelimI
      rw [if_pos rfl, hsplit, List.map_append, List.map_cons]
      rw [find?_append_none ?hpre]
      case hpre =>
        intro x hx
        rw [List.mem_map] at hx
        obtain ⟨d, hd, hxd⟩ := hx
        rw [← hxd, pyRfind_neg_iff.mpr (hpre d hd)]
        simp
      rw [List.find?_cons_of_pos _ (by rw [hrf]; simpa using h1k)]
      rw [Option.getD_some, hrf]
    rw [breakPoint, hclosest, if_neg (by omega)]
    simp
  · intro k hex hub
    obtain ⟨dw, hdw, hkw⟩ := hex
    have h1k : 1 ≤ k := one_le_of_mem_occList hkw
    have hclosest : closestDelimI s delims false tpl = (k : Int) := by
      unfold closestDelimI
      rw [if_neg (by simp)]
      cases hd : delims with
      | nil =>
        rw [hd] at hdw
        simp at hdw
      | cons d0 ds =>
        simp only [List.map_cons]
        have hwmax : pyRfind s dw 1 tpl = (k : Int) :=
          pyRfind_eq_of_max hkw (hub dw hdw)
        have hub' : ∀ d ∈ delims, pyRfind s d 1 tpl ≤ (k : Int) := fun d hdm =>
          pyRfind_le_of_ub (hub d hdm)
        refine foldl_max_eq ?_ ?_ ?_
        · rw [hd] at hdw
          rcases List.mem_cons.mp hdw with he | hm
          · left
            rw [← he, hwmax]
          · right
            rw [← hwmax]
            exact List.mem_map_of_mem _ hm
        · exact hub' d0 (by rw [hd]; exact List.mem_cons_self d0 ds)
        · intro x hx
          rw [List.mem_map] at hx
          obtain ⟨d, hdm, hxd⟩ := hx
          rw [← hxd]
          exact hub' d (by rw [hd]; exact List.mem_cons_of_mem d0 hdm)
    rw [breakPoint, hclosest, if_neg (by omega)]
    simp

theorem replaceAll_of_count_zero {pat rep s : List Char} (hp : pat ≠ [])
    (h : countOcc pat s = 0) : replaceAll pat rep s = s := by
  induction s with
  | nil => exact replaceAll_nil
  | cons c rest ih =>
    by_cases hm : (c :: rest).take pat.length = pat
    · rw [countOcc_cons_pos hp hm] at h
      omega
    · rw [countOcc_cons_neg hp hm] at h
      rw [replaceAll_cons_neg hp hm, ih h]

theorem escapeSpecAux_succ (f : Nat) (c : Char) (rest : List Char) :
    escapeSpecAux (f + 1) (c :: rest) =
      if (c :: rest).take ("@everyone".data).length = "@everyone".data then
        "@\u200beveryone".data ++
          escapeSpecAux f (rest.drop (("@everyone".data).length - 1))
      else if (c :: rest).take ("@here".data).length = "@here".data then
        "@\u200bhere".data ++
          escapeSpecAux f (rest.drop (("@here".data).length - 1))
      else c :: escapeSpecAux f rest := rfl

theorem escapeSpecAux_fuel :
    ∀ f (s : List Char), s.length ≤ f →
      escapeSpecAux f s = escapeSpecAux s.length s := by
  intro f
  induction f using Nat.strong_induction_on with
  | _ f ih =>
    intro s hs
    match f, s with
    | 0, s =>
      cases s with
      | nil => rfl
      | cons c r => simp at hs
    | f' + 1, [] => rfl
    | f' + 1, c :: rest =>
      simp only [List.length_cons] at hs
      rw [List.length_cons, escapeSpecAux_succ, escapeSpecAux_succ]
      by_cases hev : (c :: rest).take ("@everyone".data).length =
        "@everyone".data
      · have hd : (rest.drop (("@everyone".data).length - 1)).length ≤
            rest.length := by
          simp only [List.length_drop]
          omega
        rw [if_pos hev, if_pos hev,
          ih f' (by omega) _ (hd.trans (by omega)),
          ih rest.length (by omega) _ hd]
      · by_cases hh : (c :: rest).take ("@here".data).length = "@here".data
        · have hd : (rest.drop (("@here".data).length - 1)).length ≤
              rest.length := by
            simp only [List.length_drop]
            omega
          rw [if_neg hev, if_neg hev, if_pos hh, if_pos hh,
            ih f' (by omega) _ (hd.trans (by omega)),
            ih rest.length (by omega) _ hd]
        · rw [if_neg hev, if_neg hev, if_neg hh, if_neg hh,
            ih f' (by omega) rest (by omega)]

theorem escapeSpec_cons_ev {c : Char} {rest : List Char}
    (hev : (c :: rest).take ("@everyone".data).length = "@everyone".data) :
    escapeSpec (c :: rest) = "@\u200beveryone".data ++
      escapeSpec (rest.drop (("@everyone".data).length - 1)) := by
  have hd : (rest.drop (("@everyone".data).length - 1)).length ≤
      rest.length := by
    simp only [List.length_drop]
    omega
  rw [escapeSpec, escapeSpec, List.length_cons, escapeSpecAux_succ,
    if_pos hev, escapeSpecAux_fuel rest.length _ hd]

theorem escapeSpec_cons_here {c : Char} {rest : List Char}
    (hev : ¬ (c :: rest).take ("@everyone".data).length = "@everyone".data)
    (hh : (c :: rest).take ("@here".data).length = "@here".data) :
    escapeSpec (c :: rest) = "@\u200bhere".data ++
      escapeSpec (rest.drop (("@here".data).length - 1)) := by
  have hd : (rest.drop (("@here".data).length - 1)).length ≤ rest.length := by
    simp only [List.length_drop]
    omega
  rw [escapeSpec, escapeSpec, List.length_cons, escapeSpecAux_succ,
    if_neg hev, if_pos hh, escapeSpecAux_fuel rest.length _ hd]

theorem escapeSpec_cons_other {c : Char} {rest : List Char}
    (hev : ¬ (c :: rest).take ("@everyone".data).length = "@everyone".data)
    (hh : ¬ (c :: rest).take ("@here".data).length = "@here".data) :
    escapeSpec (c :: rest) = c :: escapeSpec rest := by
  rw [escapeSpec, escapeSpec, List.length_cons, escapeSpecAux_succ,
    if_neg hev, if_neg hh]

theorem head_of_take_eq {l : List Char} {n : Nat} {a : Char} {as : List Char}
    (h : l.take (n + 1) = a :: as) : l.head? = some a := by
  cases l with
  | nil => simp at h
  | cons b t =>
    rw [List.take_succ_cons] at h
    injection h with h1 _
    rw [List.head?_cons, h1]

theorem replaceAll_cons_ne_head {pat rep : List Char} (hp : pat ≠ [])
    {c : Char} {rest : List Char} (hc : ¬ pat.head? = some c) :
    replaceAll pat rep (c :: rest) = c :: replaceAll pat rep rest := by
  apply replaceAll_cons_neg hp
  intro hm
  apply hc
  cases pat with
  | nil => exact absurd rfl hp
  | cons p0 pt =>
    rw [List.length_cons, List.take_succ_cons] at hm
    injection hm with h1 _
    rw [List.head?_cons, h1]

theorem take_five_cons (a b c d e : Char) (X : List Char) :
    (a :: b :: c :: d :: e :: X).take 5 = [a, b, c, d, e] := rfl

theorem drop_four_cons (a b c d : Char) (X : List Char) :
    (a :: b :: c :: d :: X).drop (("@here".data).length - 1) = X := rfl

theorem r2_evR_append (X : List Char) :
    replaceAll "@here".data "@\u200bhere".data ("@\u200beveryone".data ++ X) =
      "@\u200beveryone".data ++ replaceAll "@here".data "@\u200bhere".data X := by
  have h0 : ("@\u200beveryone".data ++ X) = '@' :: '\u200b' :: 'e' :: 'v' ::
      'e' :: 'r' :: 'y' :: 'o' :: 'n' :: 'e' :: X := rfl
  rw [h0]
  rw [replaceAll_cons_neg (by decide)
    (by
      intro hm
      rw [(by decide : ("@here".data).length = 5), take_five_cons] at hm
      exact absurd hm (by decide))]
  rw [@replaceAll_cons_ne_head "@here".data "@\u200bhere".data (by decide)
      '\u200b' _ (by decide),
    @replaceAll_cons_ne_head "@here".data "@\u200bhere".data (by decide)
      'e' _ (by decide),
    @replaceAll_cons_ne_head "@here".data "@\u200bhere".data (by decide)
      'v' _ (by decide),
    @replaceAll_cons_ne_head "@here".data "@\u200bhere".data (by decide)
      'e' _ (by decide),
    @replaceAll_cons_ne_head "@here".data "@\u200bhere".data (by decide)
      'r' _ (by decide),
    @replaceAll_cons_ne_head "@here".data "@\u200bhere".data (by decide)
      'y' _ (by decide),
    @replaceAll_cons_ne_head "@here".data "@\u200bhere".data (by decide)
      'o' _ (by decide),
    @replaceAll_cons_ne_head "@here".data "@\u200bhere".data (by decide)
      'n' _ (by decide),
    @replaceAll_cons_ne_head "@here".data "@\u200bhere".data (by decide)
      'e' _ (by decide)]
  rfl

theorem replaceAll_take_reflect :
    ∀ p : List Char, (∀ c ∈ p, ¬ c = '@') → ∀ rest : List Char,
      (replaceAll "@everyone".data "@\u200beveryone".data rest).take p.length
        = p →
      rest.take p.length = p := by
  intro p
  induction p with
  | nil =>
    intro _ rest _
    simp
  | cons q qs ih =>
    intro hq rest h
    have hq0 : ¬ q = '@' := hq q (List.mem_cons_self q qs)
    cases rest with
    | nil =>
      rw [replaceAll_nil] at h
      simp at h
    | cons d t =>
      by_cases hm : (d :: t).take ("@everyone".data).length = "@everyone".data
      · rw [replaceAll_cons_pos (by decide) hm, List.length_cons] at h
        have hhead := head_of_take_eq h
        have hfix : ("@\u200beveryone".data ++
            replaceAll "@everyone".data "@\u200beveryone".data
              (t.drop (("@everyone".data).length - 1))).head? = some '@' := rfl
        rw [hfix] at hhead
        injection hhead with h1
        exact absurd h1.symm hq0
      · rw [replaceAll_cons_neg (by decide) hm, List.length_cons,
          List.take_succ_cons] at h
        injection h with h1 h2
        rw [List.length_cons, List.take_succ_cons, h1,
          ih (fun x hx => hq x (List.mem_cons_of_mem q hx)) t h2]

theorem escape_eq_escapeSpec : ∀ s : List Char, escape s true = escapeSpec s := by
  have key : ∀ n : Nat, ∀ s : List Char, s.length ≤ n →
      escape s true = escapeSpec s := by
    intro n
    induction n using Nat.strong_induction_on with
    | _ n ih =>
      intro s hs
      cases s with
      | nil =>
        rw [escape, if_pos rfl, replaceAll_nil, replaceAll_nil]
        rfl
      | cons c rest =>
        have hs' : rest.length + 1 ≤ n := by simpa using hs
        by_cases hev : (c :: rest).take ("@everyone".data).length =
          "@everyone".data
        · have h := ih (n - 1) (by omega)
            (rest.drop (("@everyone".data).length - 1))
            (by simp only [List.length_drop]; omega)
          rw [escape, if_pos rfl] at h
          rw [escape, if_pos rfl, replaceAll_cons_pos (by decide) hev,
            r2_evR_append, escapeSpec_cons_ev hev, h]
        · by_cases hh : (c :: rest).take ("@here".data).length = "@here".data
          · rw [(by decide : ("@here".data).length = 5),
              show (5 : Nat) = 4 + 1 from rfl, List.take_succ_cons,
              show "@here".data = '@' :: 'h' :: 'e' :: 'r' :: 'e' :: [] from
                rfl] at hh
            injection hh with hc hh4
            subst hc
            have hsplit : rest = 'h' :: 'e' :: 'r' :: 'e' :: rest.drop 4 := by
              conv_lhs => rw [← List.take_append_drop 4 rest]
              rw [hh4]
              rfl
            rw [hsplit] at hev ⊢
            have h := ih (n - 1) (by omega) (rest.drop 4)
              (by simp only [List.length_drop]; omega)
            rw [escape, if_pos rfl] at h
            rw [escape, if_pos rfl, replaceAll_cons_neg (by decide) hev,
              @replaceAll_cons_ne_head "@everyone".data
                "@\u200beveryone".data (by decide) 'h' _ (by decide),
              @replaceAll_cons_ne_head "@everyone".data
                "@\u200beveryone".data (by decide) 'e' _ (by decide),
              @replaceAll_cons_ne_head "@everyone".data
                "@\u200beveryone".data (by decide) 'r' _ (by decide),
              @replaceAll_cons_ne_head "@everyone".data
                "@\u200beveryone".data (by decide) 'e' _ (by decide)]
            rw [replaceAll_cons_pos (by decide)
              (by
                rw [(by decide : ("@here".data).length = 5), take_five_cons])]
            rw [drop_four_cons]
            rw [escapeSpec_cons_here hev
              (by
                rw [(by decide : ("@here".data).length = 5), take_five_cons])]
            rw [drop_four_cons, h]
          · have hnm : ¬ (c :: replaceAll "@everyone".data
                "@\u200beveryone".data rest).take ("@here".data).length =
                "@here".data := by
              intro hcontra
              rw [(by decide : ("@here".data).length = 5),
                show (5 : Nat) = 4 + 1 from rfl, List.take_succ_cons,
                show "@here".data = '@' :: 'h' :: 'e' :: 'r' :: 'e' :: []
                  from rfl] at hcontra
              injection hcontra with hc4 htake
              have h4 : rest.take 4 = ['h', 'e', 'r', 'e'] :=
                replaceAll_take_reflect ['h', 'e', 'r', 'e'] (by decide)
                  rest htake
              apply hh
              rw [(by decide : ("@here".data).length = 5),
                show (5 : Nat) = 4 + 1 from rfl, List.take_succ_cons, hc4, h4]
            have h := ih (n - 1) (by omega) rest (by omega)
            rw [escape, if_pos rfl] at h
            rw [escape, if_pos rfl, replaceAll_cons_neg (by decide) hev,
              replaceAll_cons_neg (by decide) hnm,
              escapeSpec_cons_other hev hh, h]
  intro s
  exact key s.length s (le_refl _)

/-! ## Claim theorems for `pagify` and `escape` -/

/-- Claim C1.  With the default settings (`delims = ["\n"]`, `priority =
False`, `escape_mass_mentions = True`, `shorten_by = 8`, `page_length =
2000`), `pagify` cuts the input into contiguous segments whose concatenation
is exactly the input text, and the yielded pages are precisely the
non-whitespace-only segments in document order, each mass-mention escaped; so
concatenating all pages after undoing the escaping insertions reproduces the
input with only whitespace-only segments removed. -/
theorem pagify_default_reconstructs (T : List Char) :
    ∃ segs pages : List (List Char),
      pagify T [['\n']] false true 8 2000 = some pages ∧
      segs.flatten = T ∧
      pages = (segs.filter fun sg => !sg.all Char.isWhitespace).map
        fun sg => escape sg true := by
  obtain ⟨segs, hjoin, heq⟩ := pagifyLoop_segs [['\n']] false true (2000 - 8)
    (by norm_num) (T.length + 1) T (by omega)
  refine ⟨segs, _, ?_, hjoin, rfl⟩
  have hfun : (fun sg : List Char => if true = true then escape sg true else sg)
      = fun sg => escape sg true := by
    funext sg
    rw [if_pos rfl]
  rw [pagify, heq, hfun]

/-- Claim C2 (code bug).  The final page emitted after the loop is escaped
*after* the length check, so it can exceed `page_length - shorten_by`: with
`page_length = 5`, `shorten_by = 0` and input `"@here"` (length 5, within
budget) the single yielded page is `"@\u200bhere"` of length 6 > 5. -/
theorem pagify_final_page_exceeds_budget :
    pagify "@here".data [['\n']] false true 0 5 = some ["@\u200bhere".data] ∧
    ("@\u200bhere".data).length = 6 ∧ ¬ (6 : Nat) ≤ 5 - 0 := by
  exact ⟨by decide, by decide, by decide⟩

/-- Claim C4 (counterexample).  With `page_length = shorten_by = 2000` the
effective budget is 0 and on input `"a"` the loop never advances: no amount
of fuel makes the loop terminate, i.e. the generator hangs instead of
yielding a finite sequence. -/
theorem pagify_nonterminating_on_zero_budget :
    ¬ ∃ (fuel : Nat) (pages : List (List Char)),
      pagifyLoop fuel [['\n']] false true (2000 - 2000) ['a'] = some pages := by
  rintro ⟨fuel, pages, h⟩
  have h0 : (2000 - 2000 : Nat) = 0 := rfl
  rw [h0, pagifyLoop_zero_budget_stuck fuel] at h
  exact absurd h (by simp)

/-- Claim C4 (amended).  Provided `shorten_by < page_length` (positive
effective budget) and a nonempty delimiter list, `pagify` terminates on every
input: the cursor strictly advances on every loop iteration, so fuel
`len(text) + 1` always completes the loop and the page sequence is finite. -/
theorem pagify_terminates (T : List Char) (delims : List (List Char))
    (prio emm : Bool) (sb pl : Nat) (hbudget : sb < pl)
    (_hdelims : delims ≠ []) :
    ∃ pages, pagify T delims prio emm sb pl = some pages := by
  obtain ⟨segs, _, heq⟩ := pagifyLoop_segs delims prio emm (pl - sb)
    (by omega) (T.length + 1) T (by omega)
  exact ⟨_, by rw [pagify]; exact heq⟩

theorem pagify_terminates_witness :
    ∃ pages, pagify "abcde".data [['\n']] false true 0 3 = some pages :=
  pagify_terminates "abcde".data [['\n']] false true 0 3 (by decide)
    (by decide)

/-- Claim C8.  For input within the effective budget the loop is skipped: a
whitespace-only (or empty) input yields zero pages, any other input yields
exactly one page equal to the input (mass-mention escaped when
`escape_mass_mentions` is set). -/
theorem pagify_short_input (T : List Char) (delims : List (List Char))
    (prio emm : Bool) (sb pl : Nat) (hlen : T.length ≤ pl - sb) :
    (T.all Char.isWhitespace = true →
      pagify T delims prio emm sb pl = some []) ∧
    (¬ T.all Char.isWhitespace = true →
      pagify T delims prio emm sb pl =
        some [if emm then escape T true else T]) := by
  constructor
  · intro hws
    rw [pagify, pagifyLoop_succ_last (by omega)]
    rw [if_neg (by rw [pyStrip_pos_iff]; simpa using hws)]
  · intro hws
    rw [pagify, pagifyLoop_succ_last (by omega)]
    rw [if_pos (by rw [pyStrip_pos_iff]; exact hws)]

theorem pagify_short_input_witness :
    pagify "hi".data [['\n']] false true 8 2000 = some ["hi".data] ∧
    pagify " ".data [['\n']] false true 8 2000 = some [] := by
  constructor
  · have h := (pagify_short_input "hi".data [['\n']] false true 8 2000
      (by decide)).2 (by decide)
    exact h.trans (by decide)
  · exact (pagify_short_input " ".data [['\n']] false true 8 2000
      (by decide)).1 (by decide)

/-- Claim C9.  The function `escape` with `mass_mentions = True` computes, on *every*
input, exactly the single-pass specification `escapeSpec` that replaces every
occurrence of `@everyone` and every occurrence of `@here` with the variant
carrying a zero-width space between the `@` and the word; in particular it
maps `"@everyone hi"` to `"@\u200beveryone hi"`, and it returns any text
containing neither substring unchanged. -/
theorem escape_mass_mentions_spec :
    escape "@everyone hi".data true = "@\u200beveryone hi".data ∧
    (∀ s : List Char, escape s true = escapeSpec s) ∧
    (∀ s : List Char, countOcc "@everyone".data s = 0 →
      countOcc "@here".data s = 0 → escape s true = s) := by
  refine ⟨by decide, escape_eq_escapeSpec, ?_⟩
  intro s h1 h2
  rw [escape, if_pos rfl, replaceAll_of_count_zero (by decide) h1,
    replaceAll_of_count_zero (by decide) h2]

theorem escape_mass_mentions_spec_witness :
    escape "hello there".data true = "hello there".data ∧
    escape "hey @here and @everyone".data true =
      escapeSpec "hey @here and @everyone".data ∧
    escapeSpec "hey @here and @everyone".data =
      "hey @\u200bhere and @\u200beveryone".data :=
  ⟨escape_mass_mentions_spec.2.2 "hello there".data (by decide) (by decide),
   escape_mass_mentions_spec.2.1 "hey @here and @everyone".data,
   by decide⟩

/-- Claim C10.  Mass-mention escaping is applied per page after slicing: with
`page_length = 10`, `shorten_by = 0` and input `"aaaaaaaa@everyone"` the hard
cut at index 10 falls inside the `@everyone` occurrence, so neither adjacent
page escapes it — the concatenation of the yielded pages still contains the
raw substring `@everyone` and no zero-width space was inserted anywhere. -/
theorem pagify_hard_cut_splits_mention :
    ∃ pages : List (List Char),
      pagify "aaaaaaaa@everyone".data [['\n']] false true 0 10 = some pages ∧
      pages.flatten = "aaaaaaaa@everyone".data ∧
      0 < countOcc "@everyone".data pages.flatten ∧
      ∀ p ∈ pages, ∀ c ∈ p, ¬ c = '\u200b' := by
  refine ⟨["aaaaaaaa@e".data, "veryone".data], by decide, by decide,
    by decide, by decide⟩

theorem pagify_break_point_selection_witness :
    breakPoint "a\n\nbb\ncc".data [['x']] true 7 = 7 ∧
    breakPoint "a\n\nbb\ncc".data ["\n\n".data, "\n".data] true 7 = 1 ∧
    breakPoint "a\n\nbb\ncc".data ["\n\n".data, "\n".data] false 7 = 5 := by
  refine ⟨?_, ?_, ?_⟩
  · exact (pagify_break_point_selection "a\n\nbb\ncc".data [['x']] 7).1
      (by decide) true
  · exact (pagify_break_point_selection "a\n\nbb\ncc".data
      ["\n\n".data, "\n".data] 7).2.1 [] ["\n".data] "\n\n".data rfl
      (by decide) (by decide) 1 (by decide) (by decide)
  · exact (pagify_break_point_selection "a\n\nbb\ncc".data
      ["\n\n".data, "\n".data] 7).2.2 5 ⟨"\n".data, by decide, by decide⟩
      (by decide)

/-! ## Rectangularity of `bordered` -/

/-- The width parameter of a piece. -/
def pieceWidth : CellPiece → Nat
  | .top w => w
  | .cell w _ => w
  | .bottom w => w
  | .fill w => w

/-- Well-formedness of a piece with respect to its column width: a content
line never exceeds the inner width (true by construction, since the width is
the column's longest line plus nine), and content lines carry neither a
newline nor a brace character (braces would be touched by the final
`str.format` pass). -/
def PieceGood (p : CellPiece) (w : Nat) : Prop :=
  pieceWidth p = w ∧
    (∀ w' line, p = CellPiece.cell w' line →
      line.length ≤ w' ∧ ¬ '\n' ∈ line ∧ ∀ c ∈ line, ¬ c = '{' ∧ ¬ c = '}')

theorem length_render {g : Glyphs} {p : CellPiece} {w : Nat}
    (h : PieceGood p w) : (render g p).length = w + 2 := by
  obtain ⟨hw, hcell⟩ := h
  cases p with
  | top w' =>
    rw [pieceWidth] at hw
    simp [render, hw]
  | cell w' line =>
    rw [pieceWidth] at hw
    have hl := (hcell w' line rfl).1
    simp [render, hw]
    omega
  | bottom w' =>
    rw [pieceWidth] at hw
    simp [render, hw]
  | fill w' =>
    rw [pieceWidth] at hw
    simp [render, hw]

theorem nl_not_mem_render {g : Glyphs} {p : CellPiece} {w : Nat}
    (hg : ¬ g.TL = '\n' ∧ ¬ g.TR = '\n' ∧ ¬ g.BL = '\n' ∧ ¬ g.BR = '\n' ∧
      ¬ g.HZ = '\n' ∧ ¬ g.VT = '\n')
    (h : PieceGood p w) : ¬ '\n' ∈ render g p := by
  obtain ⟨h1, h2, h3, h4, h5, h6⟩ := hg
  obtain ⟨_, hcell⟩ := h
  cases p with
  | top w' =>
    intro hmem
    simp only [render] at hmem
    rcases List.mem_cons.mp hmem with h | hmem2
    · exact h1 h.symm
    rcases List.mem_append.mp hmem2 with h | h
    · exact h5 (List.mem_replicate.mp h).2.symm
    · exact h2 (List.mem_singleton.mp h).symm
  | cell w' line =>
    have hline := (hcell w' line rfl).2.1
    intro hmem
    simp only [render] at hmem
    rcases List.mem_cons.mp hmem with h | hmem2
    · exact h6 h.symm
    rcases List.mem_append.mp hmem2 with hmem3 | h
    · rcases List.mem_append.mp hmem3 with h | h
      · exact hline h
      · exact absurd (List.mem_replicate.mp h).2 (by decide)
    · exact h6 (List.mem_singleton.mp h).symm
  | bottom w' =>
    intro hmem
    simp only [render] at hmem
    rcases List.mem_cons.mp hmem with h | hmem2
    · exact h3 h.symm
    rcases List.mem_append.mp hmem2 with h | h
    · exact h5 (List.mem_replicate.mp h).2.symm
    · exact h4 (List.mem_singleton.mp h).symm
  | fill w' =>
    intro hmem
    simp only [render] at hmem
    exact absurd (List.mem_replicate.mp hmem).2 (by decide)

theorem length_sepJoin (sep : List Char) :
    ∀ ls : List (List Char), (sepJoin sep ls).length =
      (ls.map List.length).sum + sep.length * (ls.length - 1)
  | [] => by simp [sepJoin]
  | [x] => by simp [sepJoin]
  | x :: y :: rest => by
    have ih := length_sepJoin sep (y :: rest)
    simp only [sepJoin, List.length_append, List.map_cons, List.sum_cons,
      List.length_cons, Nat.add_sub_cancel] at ih ⊢
    have hmul : sep.length * (rest.length + 1) =
        sep.length * rest.length + sep.length := by ring
    omega

theorem nl_not_mem_sepJoin {sep : List Char} (hsep : ¬ '\n' ∈ sep) :
    ∀ ls : List (List Char), (∀ l ∈ ls, ¬ '\n' ∈ l) →
      ¬ '\n' ∈ sepJoin sep ls
  | [], _ => by simp [sepJoin]
  | [x], h => by
    simpa [sepJoin] using h x (List.mem_cons_self x [])
  | x :: y :: rest, h => by
    have ih := nl_not_mem_sepJoin hsep (y :: rest)
      fun l hl => h l (List.mem_cons_of_mem x hl)
    simp only [sepJoin, List.mem_append]
    intro hmem
    rcases hmem with (hx | hs) | hr
    · exact h x (List.mem_cons_self x _) hx
    · exact hsep hs
    · exact ih hr

theorem splitNl_ne_nil (s : List Char) : splitNl s ≠ [] := by
  cases s with
  | nil => simp [splitNl]
  | cons c rest =>
    rw [splitNl]
    cases splitNl rest with
    | nil => simp
    | cons h t =>
      by_cases hc : c = '\n' <;> simp [hc]

theorem splitNl_no_nl {s : List Char} (h : ¬ '\n' ∈ s) : splitNl s = [s] := by
  induction s with
  | nil => rfl
  | cons c rest ih =>
    have hc : ¬ c = '\n' := fun he => h (he ▸ List.mem_cons_self c rest)
    have hr : ¬ '\n' ∈ rest := fun hm => h (List.mem_cons_of_mem c hm)
    rw [splitNl, ih hr]
    simp [hc]

theorem splitNl_append_nl {a : List Char} (b : List Char) (ha : ¬ '\n' ∈ a) :
    splitNl (a ++ '\n' :: b) = a :: splitNl b := by
  induction a with
  | nil =>
    rw [List.nil_append, splitNl]
    cases hsb : splitNl b with
    | nil => exact absurd hsb (splitNl_ne_nil b)
    | cons h t => simp
  | cons c a' ih =>
    have hc : ¬ c = '\n' := fun he => ha (he ▸ List.mem_cons_self c a')
    have ha' : ¬ '\n' ∈ a' := fun hm => ha (List.mem_cons_of_mem c hm)
    rw [List.cons_append, splitNl, ih ha']
    simp [hc]

theorem splitNl_sepJoin_nl :
    ∀ ls : List (List Char), ls ≠ [] → (∀ l ∈ ls, ¬ '\n' ∈ l) →
      splitNl (sepJoin ['\n'] ls) = ls
  | [], hne, _ => absurd rfl hne
  | [x], _, h => by
    rw [sepJoin]
    exact splitNl_no_nl (h x (List.mem_cons_self x []))
  | x :: y :: rest, _, h => by
    have hx : ¬ '\n' ∈ x := h x (List.mem_cons_self x _)
    have ih := splitNl_sepJoin_nl (y :: rest) (by simp)
      fun l hl => h l (List.mem_cons_of_mem x hl)
    have harr : x ++ ['\n'] ++ sepJoin ['\n'] (y :: rest) =
        x ++ '\n' :: sepJoin ['\n'] (y :: rest) := by
      simp
    rw [sepJoin, harr, splitNl_append_nl _ hx, ih]

theorem le_pyMax {l : List Nat} {x m : Nat} (hm : pyMax l = some m)
    (hx : x ∈ l) : x ≤ m := by
  cases l with
  | nil => simp at hx
  | cons a as =>
    rw [pyMax, Option.some_inj] at hm
    subst hm
    rcases List.mem_cons.mp hx with he | hmem
    · subst he
      exact (foldl_max_le as x).1
    · exact (foldl_max_le as a).2 x hmem

theorem widthsOf_spec :
    ∀ {cols : List (List (List Char))} {ws : List Nat},
      widthsOf cols = some ws →
      List.Forall₂ (fun col w => ∀ line ∈ col, line.length ≤ w) cols ws
  | [], ws, h => by
    rw [widthsOf, Option.some_inj] at h
    subst h
    exact List.Forall₂.nil
  | c :: cs, ws, h => by
    rw [widthsOf] at h
    cases hp : pyMax (c.map List.length) with
    | none => rw [hp] at h; exact absurd h (by simp)
    | some m =>
      cases hcs : widthsOf cs with
      | none => rw [hp, hcs] at h; exact absurd h (by simp)
      | some ws' =>
        rw [hp, hcs, Option.some_inj] at h
        subst h
        refine List.Forall₂.cons ?_ (widthsOf_spec hcs)
        intro line hline
        have := le_pyMax hp (List.mem_map_of_mem List.length hline)
        omega

theorem pieceGood_top (w : Nat) : PieceGood (CellPiece.top w) w :=
  ⟨rfl, fun _ _ he => CellPiece.noConfusion he⟩

theorem pieceGood_bottom (w : Nat) : PieceGood (CellPiece.bottom w) w :=
  ⟨rfl, fun _ _ he => CellPiece.noConfusion he⟩

theorem pieceGood_fill (w : Nat) : PieceGood (CellPiece.fill w) w :=
  ⟨rfl, fun _ _ he => CellPiece.noConfusion he⟩

theorem topRow_spec (ws : List Nat) :
    List.Forall₂ PieceGood (ws.map CellPiece.top) ws := by
  induction ws with
  | nil => exact List.Forall₂.nil
  | cons w wss ih => exact List.Forall₂.cons (pieceGood_top w) ih

theorem finalPieces_spec :
    ∀ (ws : List Nat) (done : List Bool), done.length = ws.length →
      List.Forall₂ PieceGood (finalPieces ws done) ws
  | [], done, _ => by
    cases done with
    | nil => exact List.Forall₂.nil
    | cons dn ds => exact List.Forall₂.nil
  | w :: wss, [], h => by simp at h
  | w :: wss, dn :: ds, h => by
    have ih := finalPieces_spec wss ds (by simpa using h)
    cases dn with
    | true => exact List.Forall₂.cons (pieceGood_fill w) ih
    | false => exact List.Forall₂.cons (pieceGood_bottom w) ih

theorem rowPieces_nil (r : Nat) (ws : List Nat) (done : List Bool) :
    rowPieces r [] ws done = ([], []) := rfl

theorem rowPieces_cons_some (r : Nat) {col : List (List Char)}
    {cs : List (List (List Char))} {w : Nat} {wss : List Nat} {dn : Bool}
    {ds : List Bool} {line : List Char} (hcr : col[r]? = some line) :
    rowPieces r (col :: cs) (w :: wss) (dn :: ds) =
      (CellPiece.cell w line :: (rowPieces r cs wss ds).1,
        dn :: (rowPieces r cs wss ds).2) := by
  simp only [rowPieces, hcr]

theorem rowPieces_cons_none_open (r : Nat) {col : List (List Char)}
    {cs : List (List (List Char))} {w : Nat} {wss : List Nat}
    {ds : List Bool} (hcr : col[r]? = none) :
    rowPieces r (col :: cs) (w :: wss) (false :: ds) =
      (CellPiece.bottom w :: (rowPieces r cs wss ds).1,
        true :: (rowPieces r cs wss ds).2) := by
  simp only [rowPieces, hcr]
  rfl

theorem rowPieces_cons_none_done (r : Nat) {col : List (List Char)}
    {cs : List (List (List Char))} {w : Nat} {wss : List Nat}
    {ds : List Bool} (hcr : col[r]? = none) :
    rowPieces r (col :: cs) (w :: wss) (true :: ds) =
      (CellPiece.fill w :: (rowPieces r cs wss ds).1,
        true :: (rowPieces r cs wss ds).2) := by
  simp only [rowPieces, hcr]
  rfl

theorem rowPieces_spec (r : Nat) :
    ∀ (cols : List (List (List Char))) (ws : List Nat) (done : List Bool),
      List.Forall₂ (fun col w => ∀ line ∈ col, line.length ≤ w) cols ws →
      (∀ col ∈ cols, ∀ line ∈ col, ¬ '\n' ∈ line) →
      (∀ col ∈ cols, ∀ line ∈ col, ∀ c ∈ line, ¬ c = '{' ∧ ¬ c = '}') →
      done.length = cols.length →
      List.Forall₂ PieceGood (rowPieces r cols ws done).1 ws ∧
        (rowPieces r cols ws done).2.length = done.length := by
  intro cols
  induction cols with
  | nil =>
    intro ws done hf hnl hbr hlen
    cases hf
    rw [rowPieces_nil]
    exact ⟨List.Forall₂.nil, by simpa using hlen.symm⟩
  | cons col cs ih =>
    intro ws done hf hnl hbr hlen
    cases hf with
    | cons hcw hrest =>
      cases done with
      | nil => simp at hlen
      | cons dn ds =>
        have hlen' : ds.length = cs.length := by simpa using hlen
        have hnl' : ∀ c ∈ cs, ∀ line ∈ c, ¬ '\n' ∈ line := fun c hc =>
          hnl c (List.mem_cons_of_mem col hc)
        have hbr' : ∀ c ∈ cs, ∀ line ∈ c, ∀ ch ∈ line, ¬ ch = '{' ∧ ¬ ch = '}' :=
          fun c hc => hbr c (List.mem_cons_of_mem col hc)
        have ihr := ih _ ds hrest hnl' hbr' hlen'
        cases hcr : col[r]? with
        | some line =>
          rw [rowPieces_cons_some r hcr]
          have hmem : line ∈ col := List.getElem?_mem hcr
          refine ⟨List.Forall₂.cons ⟨rfl, ?_⟩ ihr.1, by simpa using ihr.2⟩
          intro w' line' he
          cases he
          exact ⟨hcw line hmem, hnl col (List.mem_cons_self col cs) line hmem,
            hbr col (List.mem_cons_self col cs) line hmem⟩
        | none =>
          cases dn with
          | false =>
            rw [rowPieces_cons_none_open r hcr]
            exact ⟨List.Forall₂.cons (pieceGood_bottom _) ihr.1,
              by simpa using ihr.2⟩
          | true =>
            rw [rowPieces_cons_none_done r hcr]
            exact ⟨List.Forall₂.cons (pieceGood_fill _) ihr.1,
              by simpa using ihr.2⟩

theorem bodyFold_spec {cols : List (List (List Char))} {ws : List Nat}
    (maxH : Nat)
    (hf : List.Forall₂ (fun col w => ∀ line ∈ col, line.length ≤ w) cols ws)
    (hnl : ∀ col ∈ cols, ∀ line ∈ col, ¬ '\n' ∈ line)
    (hbr : ∀ col ∈ cols, ∀ line ∈ col, ∀ c ∈ line, ¬ c = '{' ∧ ¬ c = '}') :
    (∀ row ∈ (bodyFold cols ws maxH).1, List.Forall₂ PieceGood row ws) ∧
      (bodyFold cols ws maxH).2.length = cols.length := by
  have key : ∀ (rs : List Nat) (acc : List (List CellPiece) × List Bool),
      (∀ row ∈ acc.1, List.Forall₂ PieceGood row ws) →
      acc.2.length = cols.length →
      (∀ row ∈ (rs.foldl (fun acc r => (acc.1 ++ [(rowPieces r cols ws acc.2).1],
          (rowPieces r cols ws acc.2).2)) acc).1,
        List.Forall₂ PieceGood row ws) ∧
        (rs.foldl (fun acc r => (acc.1 ++ [(rowPieces r cols ws acc.2).1],
          (rowPieces r cols ws acc.2).2)) acc).2.length = cols.length := by
    intro rs
    induction rs with
    | nil =>
      intro acc h1 h2
      exact ⟨h1, h2⟩
    | cons r rs' ihr =>
      intro acc h1 h2
      rw [List.foldl_cons]
      apply ihr
      · intro row hrow
        rcases List.mem_append.mp hrow with h | h
        · exact h1 row h
        · rw [List.mem_singleton] at h
          subst h
          exact (rowPieces_spec r cols ws acc.2 hf hnl hbr h2).1
      · exact ((rowPieces_spec r cols ws acc.2 hf hnl hbr h2).2).trans h2
  exact key (List.range maxH) ([], List.replicate cols.length false)
    (by simp) (by simp)

theorem forall₂_mem_left {α β : Type} {R : α → β → Prop} :
    ∀ {l1 : List α} {l2 : List β}, List.Forall₂ R l1 l2 → ∀ {a : α}, a ∈ l1 →
      ∃ b ∈ l2, R a b := by
  intro l1
  induction l1 with
  | nil =>
    intro l2 _ a ha
    simp at ha
  | cons x xs ih =>
    intro l2 hf a ha
    cases hf with
    | cons hxy hrest =>
      rcases List.mem_cons.mp ha with he | hm
      · subst he
        exact ⟨_, List.mem_cons_self _ _, hxy⟩
      · obtain ⟨b, hb, hr⟩ := ih hrest hm
        exact ⟨b, List.mem_cons_of_mem _ hb, hr⟩

theorem matrixOf_spec {cols : List (List (List Char))}
    {rows : List (List CellPiece)} (hm : matrixOf cols = some rows)
    (hnl : ∀ col ∈ cols, ∀ line ∈ col, ¬ '\n' ∈ line)
    (hbr : ∀ col ∈ cols, ∀ line ∈ col, ∀ c ∈ line, ¬ c = '{' ∧ ¬ c = '}') :
    ∃ ws : List Nat, widthsOf cols = some ws ∧ rows ≠ [] ∧
      ∀ row ∈ rows, List.Forall₂ PieceGood row ws := by
  rw [matrixOf] at hm
  cases hws : widthsOf cols with
  | none =>
    rw [hws] at hm
    exact absurd hm (by simp)
  | some ws =>
    rw [hws] at hm
    have hrows : (ws.map CellPiece.top)
        :: (bodyFold cols ws ((cols.map List.length).foldl max 0)).1
        ++ [finalPieces ws
              (bodyFold cols ws ((cols.map List.length).foldl max 0)).2]
        = rows := Option.some_inj.mp hm
    have hf := widthsOf_spec hws
    have hlen : ws.length = cols.length := hf.length_eq.symm
    have hbody := bodyFold_spec ((cols.map List.length).foldl max 0) hf hnl hbr
    refine ⟨ws, rfl, ?_, ?_⟩
    · rw [← hrows]
      simp
    · intro row hrow
      rw [← hrows] at hrow
      rcases List.mem_cons.mp hrow with he | hmm
      · subst he
        exact topRow_spec ws
      · rcases List.mem_append.mp hmm with h | h
        · exact hbody.1 row h
        · rw [List.mem_singleton] at h
          subst h
          exact finalPieces_spec ws _ (hbody.2.trans hlen.symm)

theorem forall₂_render_lengths {g : Glyphs} {row : List CellPiece}
    {ws : List Nat} (hfg : List.Forall₂ PieceGood row ws) :
    (row.map (render g)).map List.length = ws.map fun w => w + 2 := by
  induction hfg with
  | nil => simp
  | cons hpw hrest ih => simp [length_render hpw, ih]

/-! ### The final `str.format` pass -/

theorem spanToBrace_eq :
    ∀ {l n r : List Char}, spanToBrace l = some (n, r) → l = n ++ '}' :: r := by
  intro l
  induction l with
  | nil =>
    intro n r h
    simp [spanToBrace] at h
  | cons c rest ih =>
    intro n r h
    by_cases hc : c = '}'
    · rw [spanToBrace, if_pos hc, Option.some_inj] at h
      have h1 := congrArg Prod.fst h
      have h2 := congrArg Prod.snd h
      simp only at h1 h2
      subst h1 h2 hc
      rfl
    · rw [spanToBrace, if_neg hc] at h
      cases hsp : spanToBrace rest with
      | none =>
        rw [hsp] at h
        simp at h
      | some q =>
        obtain ⟨q1, q2⟩ := q
        rw [hsp, Option.map_some', Option.some_inj] at h
        have h1 := congrArg Prod.fst h
        have h2 := congrArg Prod.snd h
        simp only at h1 h2
        subst h1 h2
        rw [List.cons_append]
        rw [← ih hsp]

theorem spanToBrace_append {a : List Char} :
    ∀ {n r : List Char} (y : List Char), spanToBrace a = some (n, r) →
      spanToBrace (a ++ y) = some (n, r ++ y) := by
  induction a with
  | nil =>
    intro n r y h
    simp [spanToBrace] at h
  | cons c rest ih =>
    intro n r y h
    by_cases hc : c = '}'
    · rw [spanToBrace, if_pos hc, Option.some_inj] at h
      have h1 := congrArg Prod.fst h
      have h2 := congrArg Prod.snd h
      simp only at h1 h2
      subst h1 h2
      rw [List.cons_append, spanToBrace, if_pos hc]
    · rw [spanToBrace, if_neg hc] at h
      cases hsp : spanToBrace rest with
      | none =>
        rw [hsp] at h
        simp at h
      | some q =>
        obtain ⟨q1, q2⟩ := q
        rw [hsp, Option.map_some', Option.some_inj] at h
        have h1 := congrArg Prod.fst h
        have h2 := congrArg Prod.snd h
        simp only at h1 h2
        subst h1 h2
        rw [List.cons_append, spanToBrace, if_neg hc, ih y hsp,
          Option.map_some']

theorem spanToBrace_length {l n r : List Char}
    (h : spanToBrace l = some (n, r)) : r.length < l.length := by
  have := spanToBrace_eq h
  subst this
  simp only [List.length_append, List.length_cons]
  omega

theorem pyFormatBAux_fuel (g : Glyphs) :
    ∀ f (s : List Char), s.length < f →
      pyFormatBAux g f s = pyFormatBAux g (s.length + 1) s := by
  intro f
  induction f using Nat.strong_induction_on with
  | _ f ih =>
    intro s hs
    match f, s with
    | 0, s => simp at hs
    | f' + 1, [] => rfl
    | f' + 1, c :: rest =>
      simp only [List.length_cons] at hs
      simp only [List.length_cons, pyFormatBAux]
      by_cases hc : c = '{'
      · simp only [if_pos hc]
        cases rest with
        | nil => rfl
        | cons c2 rest2 =>
          simp only [List.length_cons] at hs ⊢
          by_cases hc2 : c2 = '{'
          · simp only [if_pos hc2]
            rw [ih f' (by omega) rest2 (by omega),
              ih (rest2.length + 1 + 1) (by omega) rest2 (by omega)]
          · simp only [if_neg hc2]
            cases hsp : spanToBrace (c2 :: rest2) with
            | none => rfl
            | some q =>
              obtain ⟨name, rest'⟩ := q
              dsimp only
              cases hbk : borderKey g name with
              | none => rfl
              | some ch =>
                have hlen' : rest'.length < rest2.length + 1 := by
                  have := spanToBrace_length hsp
                  simpa using this
                rw [ih f' (by omega) rest' (by omega),
                  ih (rest2.length + 1 + 1) (by omega) rest' (by omega)]
      · by_cases hc3 : c = '}'
        · simp only [if_neg hc, if_pos hc3]
          cases rest with
          | nil => rfl
          | cons c2 rest2 =>
            simp only [List.length_cons] at hs ⊢
            by_cases hc2 : c2 = '}'
            · simp only [if_pos hc2]
              rw [ih f' (by omega) rest2 (by omega),
                ih (rest2.length + 1 + 1) (by omega) rest2 (by omega)]
            · simp only [if_neg hc2]
        · simp only [if_neg hc, if_neg hc3]
          rw [ih f' (by omega) rest (by omega),
            ih (rest.length + 1) (by omega) rest (by omega)]

theorem pyFormatB_nil (g : Glyphs) : pyFormatB g [] = some [] := rfl

theorem pyFormatB_other {g : Glyphs} {c : Char} {rest : List Char}
    (hc : ¬ c = '{') (hc2 : ¬ c = '}') :
    pyFormatB g (c :: rest) = (pyFormatB g rest).map fun t => c :: t := by
  rw [pyFormatB, pyFormatB]
  simp only [List.length_cons, pyFormatBAux, if_neg hc, if_neg hc2]

theorem pyFormatB_open_open (g : Glyphs) (rest : List Char) :
    pyFormatB g ('{' :: '{' :: rest) =
      (pyFormatB g rest).map fun t => '{' :: t := by
  rw [pyFormatB, pyFormatB]
  simp only [List.length_cons, pyFormatBAux, if_true, if_pos rfl]
  rw [pyFormatBAux_fuel g (rest.length + 1 + 1) rest (by omega)]

theorem pyFormatB_close_close (g : Glyphs) (rest : List Char) :
    pyFormatB g ('}' :: '}' :: rest) =
      (pyFormatB g rest).map fun t => '}' :: t := by
  rw [pyFormatB, pyFormatB]
  simp only [List.length_cons, pyFormatBAux, if_true, if_pos rfl, if_neg (by decide :
    ¬ '}' = '{')]
  rw [pyFormatBAux_fuel g (rest.length + 1 + 1) rest (by omega)]

theorem pyFormatB_open_nil (g : Glyphs) : pyFormatB g ['{'] = none := rfl

theorem pyFormatB_close_nil (g : Glyphs) : pyFormatB g ['}'] = none := rfl

theorem pyFormatB_close_bad {g : Glyphs} {c2 : Char} {rest2 : List Char}
    (hc2 : ¬ c2 = '}') : pyFormatB g ('}' :: c2 :: rest2) = none := by
  rw [pyFormatB]
  simp only [List.length_cons, pyFormatBAux, if_true, if_pos rfl, if_neg hc2,
    if_neg (by decide : ¬ '}' = '{')]

theorem pyFormatB_field_span_none {g : Glyphs} {c2 : Char} {rest2 : List Char}
    (hc2 : ¬ c2 = '{') (hsp : spanToBrace (c2 :: rest2) = none) :
    pyFormatB g ('{' :: c2 :: rest2) = none := by
  rw [pyFormatB]
  simp only [List.length_cons, pyFormatBAux, if_true, if_pos rfl, if_neg hc2, hsp]

theorem pyFormatB_field_key_none {g : Glyphs} {c2 : Char}
    {rest2 n r : List Char} (hc2 : ¬ c2 = '{')
    (hsp : spanToBrace (c2 :: rest2) = some (n, r))
    (hbk : borderKey g n = none) :
    pyFormatB g ('{' :: c2 :: rest2) = none := by
  rw [pyFormatB]
  simp only [List.length_cons, pyFormatBAux, if_true, if_pos rfl, if_neg hc2, hsp, hbk]

theorem pyFormatB_field_some {g : Glyphs} {c2 : Char} {rest2 n r : List Char}
    {ch : Char} (hc2 : ¬ c2 = '{')
    (hsp : spanToBrace (c2 :: rest2) = some (n, r))
    (hbk : borderKey g n = some ch) :
    pyFormatB g ('{' :: c2 :: rest2) =
      (pyFormatB g r).map fun t => ch :: t := by
  rw [pyFormatB, pyFormatB]
  simp only [List.length_cons, pyFormatBAux, if_true, if_pos rfl, if_neg hc2, hsp, hbk]
  have hr : r.length < rest2.length + 1 := by
    have := spanToBrace_length hsp
    simpa using this
  rw [pyFormatBAux_fuel g (rest2.length + 1 + 1) r (by omega)]

theorem pyFormatB_append {g : Glyphs} :
    ∀ {x x' : List Char}, pyFormatB g x = some x' → ∀ y : List Char,
      pyFormatB g (x ++ y) = (pyFormatB g y).map fun t => x' ++ t := by
  have key : ∀ n : Nat, ∀ {x x' : List Char}, x.length ≤ n →
      pyFormatB g x = some x' → ∀ y : List Char,
      pyFormatB g (x ++ y) = (pyFormatB g y).map fun t => x' ++ t := by
    intro n
    induction n with
    | zero =>
      intro x x' hl hx y
      cases x with
      | nil =>
        rw [pyFormatB_nil, Option.some_inj] at hx
        subst hx
        rw [List.nil_append]
        cases pyFormatB g y <;> rfl
      | cons c r => simp at hl
    | succ n ihn =>
      intro x x' hl hx y
      cases x with
      | nil =>
        rw [pyFormatB_nil, Option.some_inj] at hx
        subst hx
        rw [List.nil_append]
        cases pyFormatB g y <;> rfl
      | cons c rest =>
        simp only [List.length_cons] at hl
        by_cases hc : c = '{'
        · subst hc
          cases rest with
          | nil =>
            rw [pyFormatB_open_nil] at hx
            exact absurd hx (by simp)
          | cons c2 rest2 =>
            simp only [List.length_cons] at hl
            by_cases hc2 : c2 = '{'
            · subst hc2
              rw [pyFormatB_open_open] at hx
              cases ht : pyFormatB g rest2 with
              | none =>
                rw [ht] at hx
                exact absurd hx (by simp)
              | some t =>
                rw [ht, Option.map_some', Option.some_inj] at hx
                subst hx
                rw [List.cons_append, List.cons_append,
                  pyFormatB_open_open, ihn (by omega) ht y]
                cases pyFormatB g y <;> rfl
            · cases hsp : spanToBrace (c2 :: rest2) with
              | none =>
                rw [pyFormatB_field_span_none hc2 hsp] at hx
                exact absurd hx (by simp)
              | some q =>
                obtain ⟨name, r⟩ := q
                cases hbk : borderKey g name with
                | none =>
                  rw [pyFormatB_field_key_none hc2 hsp hbk] at hx
                  exact absurd hx (by simp)
                | some ch =>
                  rw [pyFormatB_field_some hc2 hsp hbk] at hx
                  cases ht : pyFormatB g r with
                  | none =>
                    rw [ht] at hx
                    exact absurd hx (by simp)
                  | some t =>
                    rw [ht, Option.map_some', Option.some_inj] at hx
                    subst hx
                    have hr : r.length ≤ n := by
                      have := spanToBrace_length hsp
                      simp only [List.length_cons] at this
                      omega
                    have hsp2 : spanToBrace ((c2 :: rest2) ++ y) =
                        some (name, r ++ y) := spanToBrace_append y hsp
                    rw [List.cons_append, List.cons_append]
                    rw [pyFormatB_field_some hc2 (by
                      rw [← List.cons_append]
                      exact hsp2) hbk]
                    rw [ihn hr ht y]
                    cases pyFormatB g y <;> rfl
        · by_cases hc3 : c = '}'
          · subst hc3
            cases rest with
            | nil =>
              rw [pyFormatB_close_nil] at hx
              exact absurd hx (by simp)
            | cons c2 rest2 =>
              simp only [List.length_cons] at hl
              by_cases hc2 : c2 = '}'
              · subst hc2
                rw [pyFormatB_close_close] at hx
                cases ht : pyFormatB g rest2 with
                | none =>
                  rw [ht] at hx
                  exact absurd hx (by simp)
                | some t =>
                  rw [ht, Option.map_some', Option.some_inj] at hx
                  subst hx
                  rw [List.cons_append, List.cons_append,
                    pyFormatB_close_close, ihn (by omega) ht y]
                  cases pyFormatB g y <;> rfl
              · rw [pyFormatB_close_bad hc2] at hx
                exact absurd hx (by simp)
          · rw [pyFormatB_other hc hc3] at hx
            cases ht : pyFormatB g rest with
            | none =>
              rw [ht] at hx
              exact absurd hx (by simp)
            | some t =>
              rw [ht, Option.map_some', Option.some_inj] at hx
              subst hx
              rw [List.cons_append, pyFormatB_other hc hc3,
                ihn (by omega) ht y]
              cases pyFormatB g y <;> rfl
  intro x x' hx y
  exact key x.length (le_refl _) hx y

theorem pyFormatB_clean {g : Glyphs} :
    ∀ {x : List Char}, (∀ c ∈ x, ¬ c = '{' ∧ ¬ c = '}') →
      pyFormatB g x = some x := by
  intro x
  induction x with
  | nil => intro _; rfl
  | cons c rest ih =>
    intro h
    have hc := h c (List.mem_cons_self c rest)
    rw [pyFormatB_other hc.1 hc.2,
      ih fun d hd => h d (List.mem_cons_of_mem c hd)]
    rfl

theorem pyFormatB_TL (g : Glyphs) : pyFormatB g "{TL}".data = some [g.TL] :=
  rfl

theorem pyFormatB_TR (g : Glyphs) : pyFormatB g "{TR}".data = some [g.TR] :=
  rfl

theorem pyFormatB_BL (g : Glyphs) : pyFormatB g "{BL}".data = some [g.BL] :=
  rfl

theorem pyFormatB_BR (g : Glyphs) : pyFormatB g "{BR}".data = some [g.BR] :=
  rfl

theorem pyFormatB_HZ (g : Glyphs) : pyFormatB g "{HZ}".data = some [g.HZ] :=
  rfl

theorem pyFormatB_VT (g : Glyphs) : pyFormatB g "{VT}".data = some [g.VT] :=
  rfl

theorem pyFormatB_hzflat (g : Glyphs) :
    ∀ (w : Nat) (y : List Char),
      pyFormatB g ((List.replicate w "{HZ}".data).flatten ++ y) =
        (pyFormatB g y).map fun t => List.replicate w g.HZ ++ t := by
  intro w
  induction w with
  | zero =>
    intro y
    simp only [List.replicate_zero, List.flatten_nil, List.nil_append,
      List.replicate_zero]
    cases pyFormatB g y <;> rfl
  | succ w ih =>
    intro y
    rw [List.replicate_succ, List.flatten_cons, List.append_assoc,
      pyFormatB_append (pyFormatB_HZ g), ih y]
    cases pyFormatB g y <;> rfl

theorem pyFormatB_placeholder {g : Glyphs} {p : CellPiece} {w : Nat}
    (hgood : PieceGood p w) :
    pyFormatB g (placeholder p) = some (render g p) := by
  obtain ⟨_, hcell⟩ := hgood
  cases p with
  | top w' =>
    rw [placeholder, render, List.append_assoc,
      pyFormatB_append (pyFormatB_TL g), pyFormatB_hzflat g w' "{TR}".data,
      pyFormatB_TR]
    rfl
  | cell w' line =>
    have hcl := hcell w' line rfl
    have hmid : ∀ c ∈ line ++ List.replicate (w' - line.length) ' ',
        ¬ c = '{' ∧ ¬ c = '}' := by
      intro c hcm
      rcases List.mem_append.mp hcm with h | h
      · exact hcl.2.2 c h
      · rw [(List.mem_replicate.mp h).2]
        exact ⟨by decide, by decide⟩
    rw [placeholder, render, List.append_assoc,
      pyFormatB_append (pyFormatB_VT g),
      pyFormatB_append (pyFormatB_clean hmid), pyFormatB_VT]
    rfl
  | bottom w' =>
    rw [placeholder, render, List.append_assoc,
      pyFormatB_append (pyFormatB_BL g), pyFormatB_hzflat g w' "{BR}".data,
      pyFormatB_BR]
    rfl
  | fill w' =>
    rw [placeholder, render]
    apply pyFormatB_clean
    intro c hcm
    rw [(List.mem_replicate.mp hcm).2]
    exact ⟨by decide, by decide⟩

theorem forall₂_map_same {α β γ : Type} {R : β → γ → Prop} {f : α → β}
    {h : α → γ} :
    ∀ {l : List α}, (∀ x ∈ l, R (f x) (h x)) →
      List.Forall₂ R (l.map f) (l.map h) := by
  intro l
  induction l with
  | nil =>
    intro _
    exact List.Forall₂.nil
  | cons x xs ih =>
    intro hl
    exact List.Forall₂.cons (hl x (List.mem_cons_self x xs))
      (ih fun d hd => hl d (List.mem_cons_of_mem x hd))

theorem pyFormatB_sepJoin {g : Glyphs} {sep : List Char}
    (hsep : ∀ c ∈ sep, ¬ c = '{' ∧ ¬ c = '}') :
    ∀ {ls ls' : List (List Char)},
      List.Forall₂ (fun a b => pyFormatB g a = some b) ls ls' →
      pyFormatB g (sepJoin sep ls) = some (sepJoin sep ls') := by
  intro ls ls' hf
  induction hf with
  | nil => rfl
  | cons hxy hrest ih =>
    cases hrest with
    | nil =>
      rw [sepJoin, sepJoin]
      exact hxy
    | cons hy hr =>
      rw [sepJoin, sepJoin, List.append_assoc, pyFormatB_append hxy,
        pyFormatB_append (pyFormatB_clean hsep), ih]
      rw [Option.map_some', Option.map_some', Option.some_inj,
        ← List.append_assoc]

/-- Claim C5 (amended).  Rectangularity of `bordered`: whenever a call with at
least one column, whose lines contain no newline and no brace characters,
returns a string, every line of that string has the same total length, namely
the sum over columns of (inner width + 2) plus 4 separator spaces between
adjacent columns.  The brace-freedom hypothesis is necessary: the final
`str.format` pass rewrites `{NAME}` placeholders and doubled braces occurring
inside content cells (see the counterexample below), so the original
unconditional claim is false. -/
theorem bordered_rectangular (cols : List (List (List Char))) (ab : Bool)
    (out : List Char) (_hne : cols ≠ [])
    (hnl : ∀ col ∈ cols, ∀ line ∈ col, ¬ '\n' ∈ line)
    (hbr : ∀ col ∈ cols, ∀ line ∈ col, ∀ c ∈ line, ¬ c = '{' ∧ ¬ c = '}')
    (hout : bordered cols ab = some out) :
    ∃ ws : List Nat, widthsOf cols = some ws ∧
      ∀ line ∈ splitNl out,
        line.length = (ws.map fun w => w + 2).sum + 4 * (cols.length - 1) := by
  cases hm : matrixOf cols with
  | none =>
    rw [bordered, hm] at hout
    exact absurd hout (by simp)
  | some rows =>
    obtain ⟨ws, hws, hrne, hrows⟩ := matrixOf_spec hm hnl hbr
    have hsep4 : ∀ c ∈ List.replicate 4 ' ', ¬ c = '{' ∧ ¬ c = '}' := by
      intro c hcm
      rw [(List.mem_replicate.mp hcm).2]
      exact ⟨by decide, by decide⟩
    have hform : pyFormatB (if ab then asciiGlyphs else boxGlyphs)
        (sepJoin ['\n'] (rows.map fun row =>
          sepJoin (List.replicate 4 ' ') (row.map placeholder))) =
        some (sepJoin ['\n'] (rows.map fun row =>
          sepJoin (List.replicate 4 ' ')
            (row.map (render (if ab then asciiGlyphs else boxGlyphs))))) := by
      apply pyFormatB_sepJoin (by decide)
      apply forall₂_map_same
      intro row hrow
      apply pyFormatB_sepJoin hsep4
      apply forall₂_map_same
      intro p hp
      obtain ⟨w, _, hpw⟩ := forall₂_mem_left (hrows row hrow) hp
      exact pyFormatB_placeholder hpw
    have hout' : sepJoin ['\n'] (rows.map fun row =>
        sepJoin (List.replicate 4 ' ')
          (row.map (render (if ab then asciiGlyphs else boxGlyphs)))) = out := by
      simp only [bordered, hm] at hout
      rw [hform] at hout
      exact Option.some_inj.mp hout
    have hlen : ws.length = cols.length := (widthsOf_spec hws).length_eq.symm
    have hgok : ¬ (if ab then asciiGlyphs else boxGlyphs).TL = '\n' ∧
        ¬ (if ab then asciiGlyphs else boxGlyphs).TR = '\n' ∧
        ¬ (if ab then asciiGlyphs else boxGlyphs).BL = '\n' ∧
        ¬ (if ab then asciiGlyphs else boxGlyphs).BR = '\n' ∧
        ¬ (if ab then asciiGlyphs else boxGlyphs).HZ = '\n' ∧
        ¬ (if ab then asciiGlyphs else boxGlyphs).VT = '\n' := by
      cases ab <;> exact (by decide)
    have hrowlen : ∀ row ∈ rows,
        (sepJoin (List.replicate 4 ' ')
          (row.map (render (if ab then asciiGlyphs else boxGlyphs)))).length =
          (ws.map fun w => w + 2).sum + 4 * (cols.length - 1) := by
      intro row hrow
      have hfg := hrows row hrow
      rw [length_sepJoin]
      rw [forall₂_render_lengths hfg]
      have hcount : row.length = ws.length := hfg.length_eq
      simp only [List.length_map, List.length_replicate, hcount, hlen]
    have hrownl : ∀ row ∈ rows, ¬ '\n' ∈ sepJoin (List.replicate 4 ' ')
        (row.map (render (if ab then asciiGlyphs else boxGlyphs))) := by
      intro row hrow
      apply nl_not_mem_sepJoin (by decide)
      intro l hl
      rw [List.mem_map] at hl
      obtain ⟨p, hp, hrend⟩ := hl
      obtain ⟨w, _, hpw⟩ := forall₂_mem_left (hrows row hrow) hp
      rw [← hrend]
      exact nl_not_mem_render hgok hpw
    refine ⟨ws, hws, ?_⟩
    rw [← hout', splitNl_sepJoin_nl _ (by simpa using hrne) ?hnlrows]
    case hnlrows =>
      intro l hl
      rw [List.mem_map] at hl
      obtain ⟨row, hrow, hrl⟩ := hl
      rw [← hrl]
      exact hrownl row hrow
    intro line hline
    rw [List.mem_map] at hline
    obtain ⟨row, hrow, hrl⟩ := hline
    rw [← hrl]
    exact hrowlen row hrow

set_option maxRecDepth 8192 in
theorem bordered_rectangular_witness :
    ∃ ws : List Nat, widthsOf [["hi".data]] = some ws ∧
      ∀ line ∈ splitNl
          ("┌───────────┐\n│hi         │\n└───────────┘".data),
        line.length = (ws.map fun w => w + 2).sum +
          4 * ([["hi".data]].length - 1) :=
  bordered_rectangular [["hi".data]] false
    ("┌───────────┐\n│hi         │\n└───────────┘".data)
    (by decide) (by decide) (by decide) (by decide)

set_option maxRecDepth 8192 in
/-- Claim C5, counterexample to the original claim.  Content lines may contain
brace characters, which the final `str.format` pass rewrites or rejects:
`bordered` on the single column `["{TL}"]` with ASCII borders returns a block
whose three lines have lengths 15, 12 and 15 — not a rectangular grid —
because the `{TL}` inside the content cell is substituted by the single glyph
`+` while the border rows keep their full width; and on `["{"]` the stray
brace makes `str.format` raise a `ValueError` (modelled as `none`). -/
theorem bordered_braces_counterexample :
    (bordered [["{TL}".data]] true =
        some ("+-------------+\n|+         |\n+-------------+".data) ∧
      (splitNl ("+-------------+\n|+         |\n+-------------+".data)).map
          List.length = [15, 12, 15]) ∧
    bordered [["\x7b".data]] true = none := by
  decide

theorem widthsOf_none_of_mem :
    ∀ {cols : List (List (List Char))}, [] ∈ cols → widthsOf cols = none := by
  intro cols h
  induction cols with
  | nil => simp at h
  | cons c cs ih =>
    rcases List.mem_cons.mp h with he | hm
    · rw [widthsOf, ← he]
      cases hcs : widthsOf cs <;> rfl
    · rw [widthsOf, ih hm]
      cases hp : pyMax (c.map List.length) <;> rfl

/-- Claim C6 (counterexample).  When `bordered` is applied to a single column of
height 0 it does not produce a two-row block: the width computation takes the `max` of
an empty sequence, which raises `ValueError` (modelled by `none`), so the
call signals failure instead of returning a block. -/
theorem bordered_empty_column_counterexample :
    bordered [([] : List (List Char))] false = none := by
  decide

/-- Claim C6 (amended).  Whenever any column is empty — in particular for a
single column of height 0 — `bordered` raises `ValueError` while computing
the column widths (`max` of an empty sequence) and produces no block. -/
theorem bordered_raises_on_empty_column (cols : List (List (List Char)))
    (ab : Bool) (h : [] ∈ cols) : bordered cols ab = none := by
  rw [bordered, matrixOf, widthsOf_none_of_mem h]

theorem bordered_raises_on_empty_column_witness :
    bordered [["ab".data], ([] : List (List Char))] true = none :=
  bordered_raises_on_empty_column [["ab".data], []] true (by decide)

/-- Claim C7 (counterexample).  On `bordered [["a","bb"], ["ccc"]]` (ASCII
borders) the first column does *not* show a bottom border one row before the
second column's content ends: the second column's content last appears in
matrix row 1, while the first column's bottom-border piece occurs only in the
final row (index 3). -/
theorem bordered_two_columns_counterexample :
    ¬ ∃ i < ((matrixOf [["a".data, "bb".data], ["ccc".data]]).getD []).length,
      pieceAt ((matrixOf [["a".data, "bb".data], ["ccc".data]]).getD []) i 0 =
          some (CellPiece.bottom 11) ∧
        lastContentRow
          ((matrixOf [["a".data, "bb".data], ["ccc".data]]).getD []) 1 =
          some (i + 1) := by
  decide

set_option maxRecDepth 16384 in
/-- Claim C7 (amended).  Applying `bordered` to `[["a","bb"], ["ccc"]]` with ASCII borders
produces a rectangular block in which every line has length 31; the *second*
column shows its bottom border (width 12) in matrix row 2, one row after its
content ends (row 1), while the first column still shows content (`"bb"`)
in that row and closes only in the final row (index 3); and the second
column's cell is padded with trailing spaces to its own computed inner width
12 = 3 + 9, not the first column's width 11. -/
theorem bordered_two_columns_layout :
    bordered [["a".data, "bb".data], ["ccc".data]] true =
      some (("+-----------+    +------------+\n" ++
        "|a          |    |ccc         |\n" ++
        "|bb         |    +------------+\n" ++
        "+-----------+                  ").data) ∧
    (∀ line ∈ splitNl (("+-----------+    +------------+\n" ++
        "|a          |    |ccc         |\n" ++
        "|bb         |    +------------+\n" ++
        "+-----------+                  ").data), line.length = 31) ∧
    pieceAt ((matrixOf [["a".data, "bb".data], ["ccc".data]]).getD []) 2 1 =
      some (CellPiece.bottom 12) ∧
    lastContentRow ((matrixOf [["a".data, "bb".data], ["ccc".data]]).getD [])
      1 = some 1 ∧
    pieceAt ((matrixOf [["a".data, "bb".data], ["ccc".data]]).getD []) 2 0 =
      some (CellPiece.cell 11 "bb".data) ∧
    pieceAt ((matrixOf [["a".data, "bb".data], ["ccc".data]]).getD []) 3 0 =
      some (CellPiece.bottom 11) ∧
    ((matrixOf [["a".data, "bb".data], ["ccc".data]]).getD []).length = 4 ∧
    render asciiGlyphs (CellPiece.cell 12 "ccc".data) =
      "|ccc         |".data := by
  decide

end ChatFormatting












